import Mathlib

/-!
Verification of the gmail classifier's core algorithms.

This file gives a shallow embedding of the repository's core logic:

* `llm_utils.parse_labels_from_response` (response parsing and label
  validation), together with the exact behaviour of the regular
  expressions and `json` calls it uses;
* `EmailClassifierAgent.process_email`, `run_continuous`'s per-batch loop,
  `_cleanup_old_state`, `_load_state` and `_save_state` (the idempotency
  ledger and orchestration).

External collaborators (the OpenRouter classifier, the Gmail client, the
file system) are modelled as explicit parameters; operations of theirs
that can raise are modelled as `Except Unit`-valued capabilities, mirroring
the `try`/`except` structure of the Python source.  Machine integers do not
occur in the source; timestamps are modelled as microseconds (`Int`).
-/

/-! ### Python string primitives

Helpers mirroring the Python `str` methods used by the source.  Whitespace
sets are the ASCII part of Python's definitions; `Char.toLower` matches
`str.lower` on ASCII, which covers every label and test vector in the
repository. -/

/-- Characters stripped by Python's `str.strip()` (ASCII whitespace). -/
def pyIsSpace (c : Char) : Bool :=
  c = ' ' || c = '\t' || c = '\n' || c = '\r' || c = '\x0b' || c = '\x0c'

/-- `str.strip()` on a character list. -/
def pyStripL (l : List Char) : List Char :=
  ((l.dropWhile pyIsSpace).reverse.dropWhile pyIsSpace).reverse

/-- Python's `str.strip()`. -/
def pyStrip (s : String) : String := String.mk (pyStripL s.toList)

/-- Python's `str.lower()` (ASCII case folding). -/
def pyLower (s : String) : String := String.mk (s.toList.map Char.toLower)

/-- Python's substring test `pat in s`. -/
def containsSub : List Char → List Char → Bool
  | [], pat => pat.isEmpty
  | c :: t, pat => pat.isPrefixOf (c :: t) || containsSub t pat

/-- Remove every occurrence of the pattern `p :: ps`, scanning left to
right, as Python's `str.replace(pat, '')` does.  Structural recursion on a
fuel that always dominates the list length (each step shortens the list by
at least one while spending one unit), so the base cases coincide. -/
def removeAllF (p : Char) (ps : List Char) : Nat → List Char → List Char
  | 0, _ => []
  | Nat.succ _, [] => []
  | Nat.succ fuel, c :: t =>
    if (p :: ps).isPrefixOf (c :: t) then removeAllF p ps fuel (t.drop ps.length)
    else c :: removeAllF p ps fuel t

/-- Python's `str.replace(pat, '')` (the only replacement the source does). -/
def pyRemoveAll (s pat : String) : String :=
  match pat.toList with
  | [] => s
  | p :: ps => String.mk (removeAllF p ps s.toList.length s.toList)

/-! ### Insertion-ordered dictionaries

Python `dict`s preserve insertion order; assigning to an existing key
updates the value in place.  The ledger, the JSON objects and the
lower-case label map are all such dictionaries. -/

/-- Membership test `k in d` for a Python dict modelled as an ordered
association list. -/
def dictContains {α : Type} (m : List (String × α)) (k : String) : Bool :=
  m.any (fun p => p.1 = k)

/-- Python dict assignment `d[k] = v`: update in place if the key exists,
append otherwise. -/
def dictInsert {α : Type} (m : List (String × α)) (k : String) (v : α) :
    List (String × α) :=
  if m.any (fun p => p.1 = k) then
    m.map (fun p => if p.1 = k then (k, v) else p)
  else m ++ [(k, v)]

/-- Python dict read `d.get(k)` / `d[k]` on a string-keyed dict. -/
def dictLookup {α : Type} (m : List (String × α)) (k : String) : Option α :=
  match m with
  | [] => none
  | (k2, v) :: rest => if k2 = k then some v else dictLookup rest k

/-! ### JSON values

`json.loads` produces values of this shape.  Numeric literals are kept as
their source lexemes (`num`): the code never inspects numbers, it only
needs to distinguish them from strings and re-serialize them. -/

inductive JValue where
  | null
  | bool (b : Bool)
  | num (lexeme : String)
  | str (s : String)
  | arr (elems : List JValue)
  | obj (fields : List (String × JValue))

/-- Whitespace accepted between JSON tokens by `json.loads`. -/
def jIsWs (c : Char) : Bool := c = ' ' || c = '\t' || c = '\n' || c = '\r'

/-- Skip inter-token whitespace. -/
def skipWs (l : List Char) : List Char := l.dropWhile jIsWs

/-- Value of one hex digit. -/
def hexVal (c : Char) : Option Nat :=
  if '0' ≤ c ∧ c ≤ '9' then some (c.toNat - '0'.toNat)
  else if 'a' ≤ c ∧ c ≤ 'f' then some (c.toNat - 'a'.toNat + 10)
  else if 'A' ≤ c ∧ c ≤ 'F' then some (c.toNat - 'A'.toNat + 10)
  else none

/-- Value of a four-hex-digit escape. -/
def hex4 (a b c d : Char) : Option Nat :=
  match hexVal a, hexVal b, hexVal c, hexVal d with
  | some x, some y, some z, some w => some (((x * 16 + y) * 16 + z) * 16 + w)
  | _, _, _, _ => none

/-- Unicode replacement character, standing in for lone surrogates, which
Python's `str` can carry but Lean's `Char` cannot. -/
def uReplacement : Char := Char.ofNat 0xfffd

/-- Scalar from a decoded `\uXXXX` escape; lone surrogates become
`uReplacement`. -/
def scalarOf (n : Nat) : Char :=
  if n < 0xd800 || (0xe000 ≤ n && n ≤ 0x10ffff) then Char.ofNat n
  else uReplacement

mutual

/-- Body of a JSON string after the opening quote, as decoded by
`json.loads` in its default strict mode: unescaped control characters are
rejected, `\uXXXX` escapes are decoded, surrogate pairs are combined.
Fuel-structural; every two units of fuel consume at least one character,
so `parseJString` always supplies enough. -/
def parseJStringF : Nat → List Char → Option (List Char × List Char)
  | 0, _ => none
  | Nat.succ fuel, l =>
    match l with
    | [] => none
    | c :: rest =>
      if c = '"' then some ([], rest)
      else if c = '\\' then
        match rest with
        | [] => none
        | e :: r =>
          if e = '"' then (parseJStringF fuel r).map (fun p => ('"' :: p.1, p.2))
          else if e = '\\' then (parseJStringF fuel r).map (fun p => ('\\' :: p.1, p.2))
          else if e = '/' then (parseJStringF fuel r).map (fun p => ('/' :: p.1, p.2))
          else if e = 'b' then (parseJStringF fuel r).map (fun p => ('\x08' :: p.1, p.2))
          else if e = 'f' then (parseJStringF fuel r).map (fun p => ('\x0c' :: p.1, p.2))
          else if e = 'n' then (parseJStringF fuel r).map (fun p => ('\n' :: p.1, p.2))
          else if e = 'r' then (parseJStringF fuel r).map (fun p => ('\r' :: p.1, p.2))
          else if e = 't' then (parseJStringF fuel r).map (fun p => ('\t' :: p.1, p.2))
          else if e = 'u' then
            match r with
            | a :: b :: c2 :: d :: r2 =>
              (match hex4 a b c2 d with
              | none => none
              | some n =>
                if 0xd800 ≤ n ∧ n ≤ 0xdbff then parseAfterHighF fuel n r2
                else (parseJStringF fuel r2).map (fun p => (scalarOf n :: p.1, p.2)))
            | _ => none
          else none
      else if c.toNat < 0x20 then none
      else (parseJStringF fuel rest).map (fun p => (c :: p.1, p.2))

/-- Continuation after a high-surrogate `\uXXXX` escape: combine with a
following low-surrogate escape as `json.loads` does, otherwise emit the
lone surrogate (as `uReplacement`) and rescan. -/
def parseAfterHighF : Nat → Nat → List Char → Option (List Char × List Char)
  | 0, _, _ => none
  | Nat.succ fuel, n, '\\' :: 'u' :: a :: b :: c2 :: d :: r4 =>
    (match hex4 a b c2 d with
    | none => none
    | some m =>
      if 0xdc00 ≤ m ∧ m ≤ 0xdfff then
        (parseJStringF fuel r4).map (fun p =>
          (Char.ofNat (0x10000 + (n - 0xd800) * 0x400 + (m - 0xdc00)) :: p.1, p.2))
      else if 0xd800 ≤ m ∧ m ≤ 0xdbff then
        (parseAfterHighF fuel m r4).map (fun p => (uReplacement :: p.1, p.2))
      else (parseJStringF fuel r4).map (fun p => (uReplacement :: scalarOf m :: p.1, p.2)))
  | Nat.succ fuel, _, l => (parseJStringF fuel l).map (fun p => (uReplacement :: p.1, p.2))

end

/-- JSON string body with sufficient fuel. -/
def parseJString (l : List Char) : Option (List Char × List Char) :=
  parseJStringF (2 * l.length + 2) l

/-- Fraction part of a JSON number (optional; a bare dot is an error). -/
def parseFracPart : List Char → Option (List Char × List Char)
  | '.' :: r =>
    let ds := r.takeWhile Char.isDigit
    if ds = [] then none else some ('.' :: ds, r.drop ds.length)
  | l => some ([], l)

/-- Exponent part of a JSON number (optional). -/
def parseExpPart : List Char → Option (List Char × List Char)
  | [] => some ([], [])
  | c :: r =>
    if c = 'e' ∨ c = 'E' then
      let (sg, r2) : List Char × List Char :=
        match r with
        | '+' :: rr => (['+'], rr)
        | '-' :: rr => (['-'], rr)
        | _ => ([], r)
      let ds := r2.takeWhile Char.isDigit
      if ds = [] then none else some (c :: (sg ++ ds), r2.drop ds.length)
    else some ([], c :: r)

/-- A JSON numeric literal: `-?(0|[1-9][0-9]*)(\.[0-9]+)?([eE][+-]?[0-9]+)?`,
returned as its lexeme. -/
def parseJNumber (l : List Char) : Option (List Char × List Char) :=
  let (sgn, l1) : List Char × List Char :=
    match l with
    | '-' :: r => (['-'], r)
    | _ => ([], l)
  match l1 with
  | [] => none
  | c :: r =>
    if c = '0' then
      match parseFracPart r with
      | none => none
      | some (f, l2) =>
        match parseExpPart l2 with
        | none => none
        | some (e, l3) => some (sgn ++ '0' :: (f ++ e), l3)
    else if c.isDigit then
      let ds := r.takeWhile Char.isDigit
      match parseFracPart (r.drop ds.length) with
      | none => none
      | some (f, l2) =>
        match parseExpPart l2 with
        | none => none
        | some (e, l3) => some (sgn ++ c :: (ds ++ f ++ e), l3)
    else none

/-- Python dict construction from parsed key/value pairs: duplicate keys
keep their first position but the last value. -/
def buildJObj (fs : List (String × JValue)) : List (String × JValue) :=
  fs.foldl (fun m kv => dictInsert m kv.1 kv.2) []

mutual

/-- One JSON value, fuel-indexed.  Fuel decreases at every structural
recursion; `jloads` supplies enough fuel for any input (see the fuel
accounting note there). -/
def parseVal : Nat → List Char → Option (JValue × List Char)
  | 0, _ => none
  | Nat.succ fuel, l =>
    match skipWs l with
    | [] => none
    | c :: rest =>
      if c = '\x7b' then
        match parseObjBody fuel rest with
        | some (fs, r) => some (JValue.obj (buildJObj fs), r)
        | none => none
      else if c = '[' then
        match parseArrBody fuel rest with
        | some (vs, r) => some (JValue.arr vs, r)
        | none => none
      else if c = '"' then
        match parseJString rest with
        | some (cs, r) => some (JValue.str (String.mk cs), r)
        | none => none
      else if c = 't' then
        if ['r', 'u', 'e'].isPrefixOf rest then some (JValue.bool true, rest.drop 3)
        else none
      else if c = 'f' then
        if ['a', 'l', 's', 'e'].isPrefixOf rest then some (JValue.bool false, rest.drop 4)
        else none
      else if c = 'n' then
        if ['u', 'l', 'l'].isPrefixOf rest then some (JValue.null, rest.drop 3)
        else none
      else if c = 'N' then
        if ['a', 'N'].isPrefixOf rest then some (JValue.num "NaN", rest.drop 2)
        else none
      else if c = 'I' then
        if ['n', 'f', 'i', 'n', 'i', 't', 'y'].isPrefixOf rest then
          some (JValue.num "Infinity", rest.drop 7)
        else none
      else if c = '-' ∧ ['I', 'n', 'f', 'i', 'n', 'i', 't', 'y'].isPrefixOf rest then
        some (JValue.num "-Infinity", rest.drop 8)
      else
        match parseJNumber (c :: rest) with
        | some (lex, r) => some (JValue.num (String.mk lex), r)
        | none => none

/-- Array body after the opening bracket. -/
def parseArrBody : Nat → List Char → Option (List JValue × List Char)
  | 0, _ => none
  | Nat.succ fuel, l =>
    match skipWs l with
    | ']' :: r => some ([], r)
    | l' =>
      match parseVal fuel l' with
      | some (v, r) =>
        match parseArrTail fuel r with
        | some (vs, r2) => some (v :: vs, r2)
        | none => none
      | none => none

/-- Array continuation: comma-separated further elements, then `]`. -/
def parseArrTail : Nat → List Char → Option (List JValue × List Char)
  | 0, _ => none
  | Nat.succ fuel, l =>
    match skipWs l with
    | ']' :: r => some ([], r)
    | ',' :: r =>
      match parseVal fuel r with
      | some (v, r2) =>
        match parseArrTail fuel r2 with
        | some (vs, r3) => some (v :: vs, r3)
        | none => none
      | none => none
    | _ => none

/-- Object body after the opening brace. -/
def parseObjBody : Nat → List Char → Option (List (String × JValue) × List Char)
  | 0, _ => none
  | Nat.succ fuel, l =>
    match skipWs l with
    | '\x7d' :: r => some ([], r)
    | '"' :: r =>
      match parseJString r with
      | some (k, r2) =>
        match skipWs r2 with
        | ':' :: r3 =>
          match parseVal fuel r3 with
          | some (v, r4) =>
            match parseObjTail fuel r4 with
            | some (fs, r5) => some ((String.mk k, v) :: fs, r5)
            | none => none
          | none => none
        | _ => none
      | none => none
    | _ => none

/-- Object continuation: comma-separated further members, then the closing
brace. -/
def parseObjTail : Nat → List Char → Option (List (String × JValue) × List Char)
  | 0, _ => none
  | Nat.succ fuel, l =>
    match skipWs l with
    | '\x7d' :: r => some ([], r)
    | ',' :: r =>
      match skipWs r with
      | '"' :: r2 =>
        match parseJString r2 with
        | some (k, r3) =>
          match skipWs r3 with
          | ':' :: r4 =>
            match parseVal fuel r4 with
            | some (v, r5) =>
              match parseObjTail fuel r5 with
              | some (fs, r6) => some ((String.mk k, v) :: fs, r6)
              | none => none
            | none => none
          | _ => none
        | none => none
      | _ => none
    | _ => none

end

/-- `json.loads`.  Fuel accounting: every unit of fuel spent either consumes
at least one character or is immediately followed by a call that does, so
`2 * length + 4` units never run out on decodable input; on undecodable
input the result is `none` either way, matching `JSONDecodeError`. -/
def jloads (s : String) : Option JValue :=
  let l := s.toList
  match parseVal (2 * l.length + 4) l with
  | some (v, r) => if skipWs r = [] then some v else none
  | none => none

/-! ### `json.dumps`

Default flags (`ensure_ascii=True`, separators `", "` and `": "`), as used
at `llm_utils.py:154`. -/

/-- Lower-case hex digit. -/
def hexDigitChar (n : Nat) : Char :=
  if n < 10 then Char.ofNat ('0'.toNat + n) else Char.ofNat ('a'.toNat + n - 10)

/-- Four-digit hex rendering for `\uXXXX` escapes. -/
def toHex4 (n : Nat) : List Char :=
  [hexDigitChar (n / 4096 % 16), hexDigitChar (n / 256 % 16),
   hexDigitChar (n / 16 % 16), hexDigitChar (n % 16)]

/-- `json.dumps`' escaping of one character (`ensure_ascii=True`). -/
def jescapeChar (c : Char) : List Char :=
  if c = '"' then ['\\', '"']
  else if c = '\\' then ['\\', '\\']
  else if c = '\n' then ['\\', 'n']
  else if c = '\r' then ['\\', 'r']
  else if c = '\t' then ['\\', 't']
  else if c = '\x08' then ['\\', 'b']
  else if c = '\x0c' then ['\\', 'f']
  else if 0x20 ≤ c.toNat ∧ c.toNat ≤ 0x7e then [c]
  else if c.toNat < 0x10000 then '\\' :: 'u' :: toHex4 c.toNat
  else
    let v := c.toNat - 0x10000
    ('\\' :: 'u' :: toHex4 (0xd800 + v / 0x400)) ++
      ('\\' :: 'u' :: toHex4 (0xdc00 + v % 0x400))

/-- A dumped JSON string literal. -/
def jdumpsStr (s : String) : String :=
  String.mk ('"' :: ((s.toList.map jescapeChar).flatten ++ ['"']))

mutual

/-- `json.dumps` with its default separators. -/
def jdumpsVal : JValue → String
  | JValue.null => "null"
  | JValue.bool true => "true"
  | JValue.bool false => "false"
  | JValue.num lex => lex
  | JValue.str s => jdumpsStr s
  | JValue.arr es => "[" ++ jdumpsElems es ++ "]"
  | JValue.obj fs => "\x7b" ++ jdumpsFields fs ++ "\x7d"

/-- Array elements joined by `", "`. -/
def jdumpsElems : List JValue → String
  | [] => ""
  | [v] => jdumpsVal v
  | v :: rest => jdumpsVal v ++ ", " ++ jdumpsElems rest

/-- Object members `"key": value` joined by `", "`. -/
def jdumpsFields : List (String × JValue) → String
  | [] => ""
  | [(k, v)] => jdumpsStr k ++ ": " ++ jdumpsVal v
  | (k, v) :: rest => jdumpsStr k ++ ": " ++ jdumpsVal v ++ ", " ++ jdumpsFields rest

end

/-! ### The regular expressions of `parse_labels_from_response`

Each of the three patterns used at `llm_utils.py:86`, `llm_utils.py:95` and
`llm_utils.py:148` is modelled by a dedicated scanner with Python `re`
semantics (leftmost match; greedy/lazy resolution worked out per pattern —
the character classes exclude the delimiters, which pins down the extent
of every match). -/

/-- The fence delimiter. -/
def tripleTick : List Char := ['`', '`', '`']

/-- First index at which a triple backtick starts. -/
def firstFenceIdx : List Char → Option Nat
  | [] => none
  | l@(_ :: t) =>
    if tripleTick.isPrefixOf l then some 0 else (firstFenceIdx t).map (· + 1)

/-- Close of `re.search(r'```(?:json)?\s*\n?(.*?)\n?```', s, re.DOTALL)`:
the lazy group ends at the first following fence, with one directly
preceding newline absorbed by the trailing `\n?`. -/
def findClose (body : List Char) : Option (List Char) :=
  match firstFenceIdx body with
  | none => none
  | some q =>
    let g := body.take q
    some (if g.getLast? = some '\n' then g.dropLast else g)

/-- Group 1 of the fenced-block search: at the leftmost fence whose suffix
holds a closing fence, skip an optional `json` tag and the maximal
whitespace run (the greedy `\s*`; the following `\n?` is then necessarily
empty), and take the lazily matched body. -/
def findFenceGroup : List Char → Option (List Char)
  | [] => none
  | l@(_ :: t) =>
    if tripleTick.isPrefixOf l then
      let afterOpen := l.drop 3
      let afterJson :=
        if ['j', 's', 'o', 'n'].isPrefixOf afterOpen then afterOpen.drop 4 else afterOpen
      let body := afterJson.dropWhile pyIsSpace
      match findClose body with
      | some g => some g
      | none => findFenceGroup t
    else findFenceGroup t

/-- The literal `"labels"` searched for inside the object pattern. -/
def labelsNeedle : List Char := '"' :: ('l' :: 'a' :: 'b' :: 'e' :: 'l' :: 's' :: ['"'])

/-- Character class `[^{}]`. -/
def notBrace (c : Char) : Bool := c != '\x7b' && c != '\x7d'

/-- `re.search(r'\{[^{}]*"labels"[^{}]*\}', s)`: at the leftmost opening
brace, the greedy brace-free runs force the match to span up to the first
brace after it, which must be a closing one, with `"labels"` inside. -/
def findLabelsObj : List Char → Option (List Char)
  | [] => none
  | c :: rest =>
    if c = '\x7b' then
      let run := rest.takeWhile notBrace
      if containsSub run labelsNeedle ∧ (rest.drop run.length).head? = some '\x7d' then
        some ('\x7b' :: (run ++ ['\x7d']))
      else findLabelsObj rest
    else findLabelsObj rest

/-- Character class `[^\[\]]`. -/
def notBracket (c : Char) : Bool := c != '[' && c != ']'

/-- `re.findall(r'\[[^\[\]]*\]|\{[^\x7b\x7d]*\}', s)`: non-overlapping flat
bracket- or brace-delimited substrings, scanning left to right.
Fuel-structural; one unit of fuel consumes at least one character. -/
def findallJsonLikeF : Nat → List Char → List (List Char)
  | 0, _ => []
  | Nat.succ _, [] => []
  | Nat.succ fuel, c :: rest =>
    if c = '[' then
      match rest.drop (rest.takeWhile notBracket).length with
      | ']' :: after =>
        ('[' :: (rest.takeWhile notBracket ++ [']'])) :: findallJsonLikeF fuel after
      | _ => findallJsonLikeF fuel rest
    else if c = '\x7b' then
      match rest.drop (rest.takeWhile notBrace).length with
      | '\x7d' :: after =>
        ('\x7b' :: (rest.takeWhile notBrace ++ ['\x7d'])) :: findallJsonLikeF fuel after
      | _ => findallJsonLikeF fuel rest
    else findallJsonLikeF fuel rest

/-- The findall scan with sufficient fuel. -/
def findallJsonLike (l : List Char) : List (List Char) := findallJsonLikeF l.length l

/-! ### `llm_utils.parse_labels_from_response` -/

/-- The dict comprehension at `llm_utils.py:118`:
lower-cased label names mapped to their canonical catalog casing (later
duplicates overwrite earlier ones, as in a Python dict). -/
def available_labels_lower (available_labels : List String) : List (String × String) :=
  available_labels.foldl (fun m label => dictInsert m (pyLower label) label) []

/-- The validation loop at `llm_utils.py:119`: keep strings that match the
catalog exactly, else case-insensitively (substituting the canonical
casing); drop everything else. -/
def validate_labels (labels : List JValue) (available_labels : List String) : List String :=
  match labels with
  | [] => []
  | JValue.str label :: rest =>
    if available_labels.contains label then label :: validate_labels rest available_labels
    else
      match dictLookup (available_labels_lower available_labels) (pyLower label) with
      | some canonical => canonical :: validate_labels rest available_labels
      | none => validate_labels rest available_labels
  | _ :: rest => validate_labels rest available_labels

/-- Label-field extraction at `llm_utils.py:104`: an object with a
`labels` member yields that member, a bare array yields itself, anything
else is an unexpected structure. -/
def extract_labels_field : JValue → Option JValue
  | JValue.obj fields => dictLookup fields "labels"
  | JValue.arr es => some (JValue.arr es)
  | _ => none

/-- The response transformations at `llm_utils.py:81`: strip; if a triple
backtick occurs, extract the fenced group (or, with no closing fence,
delete the markers); then narrow to a `{...\x22labels\x22...}` object match if one
exists. -/
def preprocessResponse (response : String) : String :=
  let r1 := pyStrip response
  let r2 :=
    if containsSub r1.toList tripleTick then
      match findFenceGroup r1.toList with
      | some g => pyStrip (String.mk g)
      | none => pyStrip (pyRemoveAll (pyRemoveAll r1 "```json") "```")
    else r1
  match findLabelsObj r2.toList with
  | some m => String.mk m
  | none => r2

/-- The fallback loop at `llm_utils.py:150`: decode each candidate
substring; a decoded array is re-wrapped and re-parsed, a decoded object
with a `labels` member is re-parsed as is, everything else is skipped. -/
def fallbackScan (recurse : String → List String) : List (List Char) → List String
  | [] => []
  | m :: rest =>
    match jloads (String.mk m) with
    | some (JValue.arr data) =>
      recurse (jdumpsVal (JValue.obj [("labels", JValue.arr data)]))
    | some (JValue.obj fields) =>
      if (dictLookup fields "labels").isSome then recurse (String.mk m)
      else fallbackScan recurse rest
    | _ => fallbackScan recurse rest

/-- `parse_labels_from_response`, fuel-indexed.  The fuel mirrors CPython's
recursion limit: the recursive fallback calls at `llm_utils.py:154` and
`llm_utils.py:156` are depth-bounded by the interpreter, and a
`RecursionError` is swallowed by the function's own blanket handler, so an
exhausted budget yields `[]` exactly as the source does. -/
def parseLabelsAux : Nat → String → List String → List String
  | 0, _, _ => []
  | Nat.succ fuel, response, available_labels =>
    let r := preprocessResponse response
    match jloads r with
    | some data =>
      match extract_labels_field data with
      | some (JValue.arr labels) => validate_labels labels available_labels
      | some _ => []
      | none => []
    | none =>
      fallbackScan (fun s => parseLabelsAux fuel s available_labels)
        (findallJsonLike r.toList)

/-- `llm_utils.parse_labels_from_response`. -/
def parse_labels_from_response (response : String) (available_labels : List String) :
    List String :=
  parseLabelsAux 1000 response available_labels

/-! ### Timestamps

`datetime.fromisoformat` over the aware-UTC timestamps this agent writes
(`datetime.now(timezone.utc).isoformat()`), modelled in microseconds.  The
accepted grammar is the classic `YYYY-MM-DD[*HH[:MM[:SS[.fff[fff]]]][+HH:MM[:SS]]]`
format of `fromisoformat`; a parse yields the local reading of the stamp
plus its UTC offset when one is present — a missing offset produces a
naive datetime, whose comparison against the aware cutoff raises
`TypeError` in the source and is modelled by `none` at the use site. -/

/-- Digit value. -/
def digitVal (c : Char) : Option Nat :=
  if '0' ≤ c ∧ c ≤ '9' then some (c.toNat - '0'.toNat) else none

/-- Exactly two digits. -/
def parse2 : List Char → Option (Nat × List Char)
  | a :: b :: r =>
    match digitVal a, digitVal b with
    | some x, some y => some (x * 10 + y, r)
    | _, _ => none
  | _ => none

/-- Exactly four digits. -/
def parse4 : List Char → Option (Nat × List Char)
  | a :: b :: c :: d :: r =>
    match digitVal a, digitVal b, digitVal c, digitVal d with
    | some x, some y, some z, some w => some (((x * 10 + y) * 10 + z) * 10 + w, r)
    | _, _, _, _ => none
  | _ => none

/-- Gregorian leap year. -/
def isLeap (y : Int) : Bool := (y % 4 = 0 && y % 100 ≠ 0) || y % 400 = 0

/-- Days in a month. -/
def daysInMonth (y m : Int) : Int :=
  if m = 2 then (if isLeap y then 29 else 28)
  else if m = 4 ∨ m = 6 ∨ m = 9 ∨ m = 11 then 30
  else 31

/-- Days since 1970-01-01 of a civil date (standard era-based formula). -/
def daysFromCivil (y m d : Int) : Int :=
  let y2 := if m ≤ 2 then y - 1 else y
  let era := Int.fdiv y2 400
  let yoe := y2 - era * 400
  let doy := (153 * (if 2 < m then m - 3 else m + 9) + 2) / 5 + d - 1
  let doe := yoe * 365 + yoe / 4 - yoe / 100 + doy
  era * 146097 + doe - 719468

/-- Microseconds per day. -/
def microsPerDay : Int := 86400000000

/-- Fractional seconds: exactly three or six digits, in microseconds. -/
def parseFraction : List Char → Option (Int × List Char)
  | '.' :: r =>
    let ds := r.takeWhile Char.isDigit
    let toVal : List Char → Int := fun l =>
      l.foldl (fun acc c => acc * 10 + (Int.ofNat (c.toNat - '0'.toNat))) 0
    if ds.length = 3 then some (toVal ds * 1000, r.drop 3)
    else if ds.length = 6 then some (toVal ds, r.drop 6)
    else none
  | l => some (0, l)

/-- UTC offset `+HH:MM[:SS]` (sign required), in microseconds. -/
def parseOffset : List Char → Option Int
  | [] => none
  | sgn :: r =>
    if sgn = '+' ∨ sgn = '-' then
      match parse2 r with
      | some (oh, ':' :: r2) =>
        match parse2 r2 with
        | some (om, r3) =>
          let secs : Option Int :=
            match r3 with
            | [] => some 0
            | ':' :: r4 =>
              match parse2 r4 with
              | some (os, []) => if os < 60 then some (Int.ofNat os) else none
              | _ => none
            | _ => none
          match secs with
          | some os =>
            if oh < 24 ∧ om < 60 then
              let v : Int := (Int.ofNat oh * 3600 + Int.ofNat om * 60 + os) * 1000000
              some (if sgn = '-' then -v else v)
            else none
          | none => none
        | _ => none
      | _ => none
    else none

/-- Time-of-day part `HH[:MM[:SS[.fff[fff]]]]` followed by an optional
offset; returns (microseconds into the day, optional offset). -/
def parseTimePart (l : List Char) : Option (Int × Option Int) :=
  match parse2 l with
  | none => none
  | some (hh, r1) =>
    if 24 ≤ hh then none
    else
      let mmPart : Option (Nat × List Char) :=
        match r1 with
        | ':' :: r2 => (parse2 r2).bind (fun p => if p.1 < 60 then some p else none)
        | _ => some (0, r1)
      match mmPart with
      | none => none
      | some (mm, r2) =>
        let ssPart : Option (Nat × List Char) :=
          match r2 with
          | ':' :: r3 => (parse2 r3).bind (fun p => if p.1 < 60 then some p else none)
          | _ => some (0, r2)
        match ssPart with
        | none => none
        | some (ss, r3) =>
          match parseFraction r3 with
          | none => none
          | some (frac, r4) =>
            let tod : Int :=
              (Int.ofNat hh * 3600 + Int.ofNat mm * 60 + Int.ofNat ss) * 1000000 + frac
            match r4 with
            | [] => some (tod, none)
            | _ =>
              match parseOffset r4 with
              | some off => some (tod, some off)
              | none => none

/-- `datetime.fromisoformat`, returning the stamp's literal value in
microseconds together with its optional UTC offset. -/
def fromisoformat (s : String) : Option (Int × Option Int) :=
  match parse4 s.toList with
  | some (y, '-' :: r1) =>
    (match parse2 r1 with
    | some (m, '-' :: r2) =>
      (match parse2 r2 with
      | some (d, r3) =>
        if 1 ≤ y ∧ 1 ≤ m ∧ m ≤ 12 ∧ 1 ≤ d ∧ Int.ofNat d ≤ daysInMonth (Int.ofNat y) (Int.ofNat m) then
          let base := daysFromCivil (Int.ofNat y) (Int.ofNat m) (Int.ofNat d) * microsPerDay
          match r3 with
          | [] => some (base, none)
          | _ :: rt =>
            match parseTimePart rt with
            | some (tod, off) => some (base + tod, off)
            | none => none
        else none
      | _ => none)
    | _ => none)
  | _ => none

/-! ### The idempotency ledger (`EmailClassifierAgent`)

The ledger `self.processed_emails` is a Python dict from message ids to
the JSON values read back from the state file — timestamps when the file
is healthy, arbitrary JSON otherwise. -/

/-- The in-memory ledger. -/
abbrev Ledger := List (String × JValue)

/-- The keep-test inside `_cleanup_old_state`'s loop: parse the
timestamp, compare against the cutoff; `ValueError`/`TypeError` (
unparsable string, non-string value, naive datetime) means drop. -/
def cleanup_keep (retention_days nowUtc : Int) (v : JValue) : Bool :=
  match v with
  | JValue.str ts =>
    match fromisoformat ts with
    | some (t, some off) => decide (nowUtc - retention_days * microsPerDay ≤ t - off)
    | _ => false
  | _ => false

/-- `EmailClassifierAgent._cleanup_old_state` (lines 105-141): with a
positive retention period, rebuild the dict keeping timestamps at or after
the cutoff `now - retention_days`; otherwise return the dict unchanged. -/
def cleanup_old_state (retention_days nowUtc : Int) (processed : Ledger) : Ledger :=
  if retention_days ≤ 0 then processed
  else
    processed.foldl
      (fun cleaned e =>
        if cleanup_keep retention_days nowUtc e.2 then dictInsert cleaned e.1 e.2
        else cleaned)
      []

/-- `EmailClassifierAgent._load_state` (lines 65-103).  The file content is
an explicit parameter (`none` for a missing file); any decode failure or
shape error that would raise in the `try` block yields the empty ledger.
A legacy bare list is migrated by stamping every identifier with the
load-time timestamp `nowIso` (non-string list entries, which Python would
keep as non-string dict keys never matched by any message id, fall outside
the string-keyed model and are dropped). -/
def load_state (retention_days nowUtc : Int) (nowIso : String)
    (fileContent : Option String) : Ledger :=
  match fileContent with
  | none => []
  | some content =>
    match jloads content with
    | none => []
    | some state_data =>
      match state_data with
      | JValue.obj fields =>
        (match (dictLookup fields "processed_emails").getD (JValue.obj []) with
        | JValue.arr ids =>
          cleanup_old_state retention_days nowUtc
            (ids.foldl
              (fun m v =>
                match v with
                | JValue.str email_id => dictInsert m email_id (JValue.str nowIso)
                | _ => m)
              [])
        | JValue.obj entries => cleanup_old_state retention_days nowUtc entries
        | _ => [])
      | _ => []

/-! ### `_save_state` (lines 143-158)

The save path opens the state file with mode `"w"` — which truncates in
place — and then streams `json.dump(state_data, f, indent=2)` into it, so
the durable file passes through a truncated intermediate state.  Any
exception inside is caught at line 157 and only logged; the in-memory
dict is untouched either way. -/

/-- Durable state visible to a crash: directory flag and file content
(`none` = absent). -/
structure FileSys where
  dirExists : Bool
  file : Option String
deriving DecidableEq

/-- One `    "id": <value>` line per entry, comma-separated, as
`json.dump(..., indent=2)` renders the inner dict (values beyond plain
scalars would be indented further by Python; ledger values are timestamp
strings in practice). -/
def stateEntryLines : Ledger → String
  | [] => ""
  | [(k, v)] => "    " ++ jdumpsStr k ++ ": " ++ jdumpsVal v
  | (k, v) :: rest => "    " ++ jdumpsStr k ++ ": " ++ jdumpsVal v ++ ",\n" ++ stateEntryLines rest

/-- The full file content written by `json.dump({"processed_emails": d},
f, indent=2)`. -/
def save_state_content (processed : Ledger) : String :=
  match processed with
  | [] => "\x7b\n  \"processed_emails\": \x7b\x7d\n\x7d"
  | _ => "\x7b\n  \"processed_emails\": \x7b\n" ++ stateEntryLines processed ++ "\n  \x7d\n\x7d"

/-- The sequence of durable states `_save_state` drives the file system
through: as found; after `os.makedirs` (directory ensured, file
untouched); after `open(state_file, "w")` (file truncated to empty);
after `json.dump` completes (new content). -/
def save_state_steps (fs : FileSys) (processed : Ledger) : List FileSys :=
  [fs, ⟨true, fs.file⟩, ⟨true, some ""⟩, ⟨true, some (save_state_content processed)⟩]

/-! ### `process_email` and the poll loop -/

/-- A Gmail message dict as far as `process_email` reads it: `.get("id")`
and the direct index `email["subject"]`. -/
structure Email where
  id : Option String
  subject : Option String

/-- The collaborators `process_email` calls into, with the operations
that can raise modelled as `Except Unit`: `classify` is
`OpenRouterClassifier.classify_email`, `addLabels` is
`GmailClient.add_labels_to_message`, `saveResult` is the outcome of the
file I/O inside `_save_state` (which swallows its failures at line 157,
so it influences nothing observable in this function), `label_id_map` and
`nowIso` are `self.label_id_map` and `datetime.now(timezone.utc)`. -/
structure AgentEnv where
  classify : Email → Except Unit (List String)
  addLabels : String → List String → Except Unit Unit
  saveResult : Except Unit Unit
  label_id_map : List (String × String)
  nowIso : String

/-- Observable outcome of one `process_email` call: the returned Bool,
the ledger afterwards, and how many classifier calls and `_save_state`
attempts were made. -/
structure ProcessOutcome where
  ok : Bool
  ledger : Ledger
  classifyCalls : Nat
  saveAttempts : Nat

/-- `EmailClassifierAgent.process_email` (lines 160-232).  The body runs
under a blanket `try`/`except` that turns any exception into `False`;
exceptions can arise from the `email["subject"]` indexing (both on the
skip path at line 179 and at line 183), from the classifier call and from
the Gmail label application.  `_save_state` cannot raise (it swallows its
own errors). -/
def process_email (env : AgentEnv) (processed : Ledger) (email : Email) : ProcessOutcome :=
  match email.id with
  | none => ⟨false, processed, 0, 0⟩
  | some email_id =>
    if email_id = "" then ⟨false, processed, 0, 0⟩
    else if dictContains processed email_id then
      match email.subject with
      | none => ⟨false, processed, 0, 0⟩
      | some _ => ⟨true, processed, 0, 0⟩
    else
      match email.subject with
      | none => ⟨false, processed, 0, 0⟩
      | some _ =>
        match env.classify email with
        | Except.error _ => ⟨false, processed, 1, 0⟩
        | Except.ok predicted_labels =>
          if predicted_labels.isEmpty then
            ⟨false, dictInsert processed email_id (JValue.str env.nowIso), 1, 1⟩
          else
            match (if (predicted_labels.filterMap
                    (fun label => dictLookup env.label_id_map label)).isEmpty
                then Except.ok ()
                else env.addLabels email_id (predicted_labels.filterMap
                    (fun label => dictLookup env.label_id_map label)) : Except Unit Unit) with
            | Except.error _ => ⟨false, processed, 1, 0⟩
            | Except.ok _ =>
              ⟨true, dictInsert processed email_id (JValue.str env.nowIso), 1, 1⟩

/-- The per-batch loop of `run_continuous` (lines 258-261): process each
fetched message in order, counting successes, threading the ledger. -/
def processBatch (env : AgentEnv) (processed : Ledger) (emails : List Email) :
    Nat × Ledger :=
  emails.foldl
    (fun acc email =>
      let r := process_email env acc.2 email
      (acc.1 + (if r.ok then 1 else 0), r.ledger))
    (0, processed)

/-! ### Specification-side definitions

Definitions phrased the way the specification describes the behaviour, to
be compared with the embedded code. -/

/-- The filtering rule as the specification words it: keep a string that
matches the catalog exactly; failing that, keep its canonical casing when
it matches case-insensitively; discard everything else. -/
def resolve_label (available_labels : List String) : JValue → Option String
  | JValue.str label =>
    if available_labels.contains label then some label
    else dictLookup (available_labels_lower available_labels) (pyLower label)
  | _ => none

/-- Canonical catalog casing of one label name (the label itself when it
is an exact catalog member). -/
def canonicalize (available_labels : List String) (label : String) : String :=
  if available_labels.contains label then label
  else (dictLookup (available_labels_lower available_labels) (pyLower label)).getD label

/-- `json.dumps({"labels": L})` — the serialization side of the
round-trip property. -/
def serialize_labels (L : List String) : String :=
  jdumpsVal (JValue.obj [("labels", JValue.arr (L.map JValue.str))])

/-- A fallback candidate the loop at `llm_utils.py:150` would recurse on:
it decodes to an array, or to an object carrying a `labels` member. -/
def suitableFallback (m : List Char) : Bool :=
  match jloads (String.mk m) with
  | some (JValue.arr _) => true
  | some (JValue.obj fields) => (dictLookup fields "labels").isSome
  | _ => false

/-- Malformed input in the sense of the parser contract: after the
transformations, either the text decodes to something that is not a
labels array (wrong shape, or a `labels` member that is not a list), or
it does not decode and no fallback candidate is suitable. -/
def malformedResponse (s : String) : Bool :=
  let r := preprocessResponse s
  match jloads r with
  | some data =>
    match extract_labels_field data with
    | some (JValue.arr _) => false
    | _ => true
  | none => (findallJsonLike r.toList).all (fun m => !suitableFallback m)

/-- Characters that pass through `json.dumps` unescaped and take no part
in any of the parser's three regular expressions: printable ASCII other
than quote, backslash, braces and backtick. -/
def safeLabelChar (c : Char) : Bool :=
  0x20 ≤ c.toNat && c.toNat ≤ 0x7e && c != '"' && c != '\\'
    && c != '\x7b' && c != '\x7d' && c != '`'

/-- A label name all of whose characters are `safeLabelChar`. -/
def safeLabel (l : String) : Bool := l.toList.all safeLabelChar

/-- Character shape of the serialized elements of `{"labels": L}`:
comma-space separated quoted labels (tail form, after the first
element). -/
def serTail : List String → List Char
  | [] => []
  | l :: ls => ',' :: ' ' :: '"' :: (l.data ++ '"' :: serTail ls)

/-- Character shape of the serialized elements of `{"labels": L}`. -/
def serElems : List String → List Char
  | [] => []
  | l :: ls => '"' :: (l.data ++ '"' :: serTail ls)

/-- Character shape of the serialized object body between its braces. -/
def serMid (L : List String) : List Char :=
  '"' :: ('l' :: 'a' :: 'b' :: 'e' :: 'l' :: 's' :: '"' :: ':' :: ' ' :: '[' ::
    (serElems L ++ [']']))

/-! ### Concrete instances used by counterexamples and witnesses -/

/-- A benign environment: the classifier always returns `["Work"]`, label
application and persistence succeed. -/
def envA : AgentEnv :=
  ⟨fun _ => Except.ok ["Work"], fun _ _ => Except.ok (), Except.ok (),
    [("Work", "LID1")], "1970-01-01T00:00:00+00:00"⟩

/-- Like `envA` but the classifier returns no labels. -/
def envEmpty : AgentEnv := { envA with classify := fun _ => Except.ok [] }

/-- Like `envA` but the classifier raises. -/
def envClassifyFail : AgentEnv := { envA with classify := fun _ => Except.error () }

/-- Like `envA` but applying labels raises. -/
def envLabelFail : AgentEnv := { envA with addLabels := fun _ _ => Except.error () }

/-- Like `envA` but the file I/O inside `_save_state` raises. -/
def envSaveFail : AgentEnv := { envA with saveResult := Except.error () }

/-- Like `envA` but classifying the message with id `mB` raises. -/
def envBoomB : AgentEnv :=
  { envA with classify := fun e => if e.id = some "mB" then Except.error ()
      else Except.ok ["Work"] }

/-- Three ledger entries aged 10, 3 and 0 days when now is day 10. -/
def ledger3 : Ledger :=
  [("a", JValue.str "1970-01-01T00:00:00+00:00"),
   ("b", JValue.str "1970-01-08T00:00:00+00:00"),
   ("c", JValue.str "1970-01-11T00:00:00+00:00")]

/-! ### Dictionary lemmas -/

theorem mem_dictInsert {α : Type} {m : List (String × α)} {k : String} {v : α}
    {p : String × α} (h : p ∈ dictInsert m k v) : p ∈ m ∨ p = (k, v) := by
  unfold dictInsert at h
  split at h
  · rcases List.mem_map.mp h with ⟨q, hq, rfl⟩
    by_cases hk : q.1 = k
    · simp [hk]
    · simp only [hk, if_false]
      exact Or.inl hq
  · rcases List.mem_append.mp h with h | h
    · exact Or.inl h
    · simp at h
      exact Or.inr h

theorem dictInsert_of_not_contains {α : Type} {m : List (String × α)} {k : String}
    (v : α) (h : dictContains m k = false) : dictInsert m k v = m ++ [(k, v)] := by
  unfold dictInsert
  simp only [dictContains] at h
  simp [h]

theorem dictContains_map_update {α : Type} (m : List (String × α)) (k j : String)
    (v : α) :
    dictContains (m.map fun p => if p.1 = k then (k, v) else p) j
      = dictContains m j := by
  induction m with
  | nil => rfl
  | cons q rest ih =>
    have hfst : (if q.1 = k then (k, v) else q).1 = q.1 := by
      by_cases hp : q.1 = k <;> simp [hp]
    simp only [List.map_cons, dictContains, List.any_cons] at *
    rw [hfst, ih]

theorem dictContains_dictInsert {α : Type} (m : List (String × α)) (k j : String)
    (v : α) :
    dictContains (dictInsert m k v) j = (decide (j = k) || dictContains m j) := by
  unfold dictInsert
  split
  · next h =>
    rw [show (m.any fun p => p.1 = k) = dictContains m k from rfl] at h
    rw [dictContains_map_update]
    by_cases hj : j = k
    · subst hj
      simp [h]
    · simp [hj]
  · next h =>
    rw [show (m.any fun p => p.1 = k) = dictContains m k from rfl] at h
    push_neg at h
    simp only [dictContains, List.any_append, List.any_cons, List.any_nil]
    by_cases hj : j = k
    · subst hj
      simp
    · simp [hj, Ne.symm hj]

theorem keys_dictInsert {α : Type} (m : List (String × α)) (k : String) (v : α) :
    (dictInsert m k v).map Prod.fst
      = if dictContains m k = true then m.map Prod.fst else m.map Prod.fst ++ [k] := by
  unfold dictInsert
  split
  · next h =>
    rw [show (m.any fun p => p.1 = k) = dictContains m k from rfl] at h
    rw [if_pos h, List.map_map]
    apply List.map_congr_left
    intro p _
    by_cases hp : p.1 = k
    · simp [Function.comp, hp]
    · simp [Function.comp, hp]
  · next h =>
    rw [show (m.any fun p => p.1 = k) = dictContains m k from rfl] at h
    rw [if_neg (by simpa using h)]
    simp

theorem keysNodup_dictInsert {α : Type} {m : List (String × α)} (k : String) (v : α)
    (h : (m.map Prod.fst).Nodup) : ((dictInsert m k v).map Prod.fst).Nodup := by
  rw [keys_dictInsert]
  split
  · exact h
  · next hc =>
    have hk : k ∉ m.map Prod.fst := by
      intro hmem
      apply hc
      rcases List.mem_map.mp hmem with ⟨p, hp, hpk⟩
      simp only [dictContains, List.any_eq_true]
      exact ⟨p, hp, by simp [hpk]⟩
    simp [List.nodup_append, h, hk]

theorem dictLookup_mem {α : Type} {m : List (String × α)} {k : String} {v : α}
    (h : dictLookup m k = some v) : (k, v) ∈ m := by
  induction m with
  | nil => simp [dictLookup] at h
  | cons q rest ih =>
    obtain ⟨k2, w⟩ := q
    rw [dictLookup] at h
    split at h
    · next hk =>
      simp at h
      subst hk
      subst h
      exact List.mem_cons_self _ _
    · exact List.mem_cons_of_mem _ (ih h)

theorem dictLookup_isSome_of_contains {α : Type} {m : List (String × α)} {k : String}
    (h : dictContains m k = true) : (dictLookup m k).isSome := by
  induction m with
  | nil => simp [dictContains] at h
  | cons q rest ih =>
    obtain ⟨k2, w⟩ := q
    rw [dictLookup]
    split
    · simp
    · next hk =>
      apply ih
      simp only [dictContains, List.any_cons] at h
      rcases Bool.or_eq_true_iff.mp h with h1 | h1
      · exact absurd (by simpa using h1) hk
      · exact h1

/-! ### Lemmas about the lower-case label map -/

theorem mem_lower_fold (av : List String) :
    ∀ (acc : List (String × String)) (p : String × String),
      p ∈ av.foldl (fun m label => dictInsert m (pyLower label) label) acc →
      p ∈ acc ∨ (p.2 ∈ av ∧ pyLower p.2 = p.1) := by
  induction av with
  | nil => intro acc p h; exact Or.inl h
  | cons l ls ih =>
    intro acc p h
    rcases ih (dictInsert acc (pyLower l) l) p h with h1 | h1
    · rcases mem_dictInsert h1 with h2 | h2
      · exact Or.inl h2
      · subst h2
        exact Or.inr ⟨List.mem_cons_self _ _, rfl⟩
    · exact Or.inr ⟨List.mem_cons_of_mem _ h1.1, h1.2⟩

theorem lower_lookup_spec {av : List String} {key v : String}
    (h : dictLookup (available_labels_lower av) key = some v) :
    v ∈ av ∧ pyLower v = key := by
  rcases mem_lower_fold av [] (key, v) (dictLookup_mem h) with h1 | h1
  · simp at h1
  · exact h1

theorem lower_contains_fold (av : List String) :
    ∀ (acc : List (String × String)) (key : String),
      (dictContains acc key = true ∨ ∃ c ∈ av, pyLower c = key) →
      dictContains (av.foldl (fun m label => dictInsert m (pyLower label) label) acc) key
        = true := by
  induction av with
  | nil =>
    intro acc key h
    rcases h with h | ⟨c, hc, _⟩
    · exact h
    · simp at hc
  | cons l ls ih =>
    intro acc key h
    apply ih
    rcases h with h | ⟨c, hc, hkey⟩
    · left
      rw [dictContains_dictInsert]
      simp [h]
    · rcases List.mem_cons.mp hc with rfl | hc2
      · left
        rw [dictContains_dictInsert]
        simp [hkey]
      · exact Or.inr ⟨c, hc2, hkey⟩

theorem lower_lookup_total {av : List String} {l : String}
    (h : ∃ c ∈ av, pyLower c = pyLower l) :
    (dictLookup (available_labels_lower av) (pyLower l)).isSome :=
  dictLookup_isSome_of_contains (lower_contains_fold av [] (pyLower l) (Or.inr h))

/-! ### Lemmas about the validation loop -/

theorem validate_labels_eq_filterMap (labels : List JValue) (av : List String) :
    validate_labels labels av = labels.filterMap (resolve_label av) := by
  induction labels with
  | nil => rfl
  | cons v rest ih =>
    cases v with
    | str l =>
      rw [validate_labels, List.filterMap_cons]
      by_cases hc : av.contains l
      · have hmem : l ∈ av := by simpa using hc
        simp [resolve_label, hc, hmem, ih]
      · have hmem : ¬ l ∈ av := by simpa using hc
        simp only [hc, if_false, resolve_label, hmem]
        cases hl : dictLookup (available_labels_lower av) (pyLower l) with
        | none => simp [hl, ih]
        | some canonical => simp [hl, ih]
    | null => simpa [validate_labels, List.filterMap_cons, resolve_label] using ih
    | bool b => simpa [validate_labels, List.filterMap_cons, resolve_label] using ih
    | num x => simpa [validate_labels, List.filterMap_cons, resolve_label] using ih
    | arr es => simpa [validate_labels, List.filterMap_cons, resolve_label] using ih
    | obj fs => simpa [validate_labels, List.filterMap_cons, resolve_label] using ih

theorem resolve_label_mem {av : List String} {v : JValue} {x : String}
    (h : resolve_label av v = some x) : x ∈ av := by
  cases v with
  | str l =>
    rw [resolve_label] at h
    split at h
    · next hc =>
      simp at h
      subst h
      simpa using hc
    · exact (lower_lookup_spec h).1
  | null => simp [resolve_label] at h
  | bool b => simp [resolve_label] at h
  | num n => simp [resolve_label] at h
  | arr es => simp [resolve_label] at h
  | obj fs => simp [resolve_label] at h

theorem validate_labels_mem (labels : List JValue) (av : List String) :
    ∀ x ∈ validate_labels labels av, x ∈ av := by
  intro x hx
  rw [validate_labels_eq_filterMap] at hx
  rcases List.mem_filterMap.mp hx with ⟨v, _, hres⟩
  exact resolve_label_mem hres

/-! ### Lemmas about the full parser -/

theorem fallbackScan_mem {av : List String} {recurse : String → List String}
    (hrec : ∀ s x, x ∈ recurse s → x ∈ av) :
    ∀ (ms : List (List Char)) (x : String), x ∈ fallbackScan recurse ms → x ∈ av := by
  intro ms
  induction ms with
  | nil => intro x hx; simp [fallbackScan] at hx
  | cons m rest ih =>
    intro x hx
    rw [fallbackScan] at hx
    split at hx
    · exact hrec _ _ hx
    · split at hx
      · exact hrec _ _ hx
      · exact ih _ hx
    · exact ih _ hx

theorem fallbackScan_unsuitable {recurse : String → List String} :
    ∀ (ms : List (List Char)), (∀ m ∈ ms, suitableFallback m = false) →
      fallbackScan recurse ms = [] := by
  intro ms
  induction ms with
  | nil => intro _; rfl
  | cons m rest ih =>
    intro h
    have hm := h m (List.mem_cons_self _ _)
    rw [fallbackScan]
    rw [suitableFallback] at hm
    split
    · next heq => rw [heq] at hm; simp at hm
    · next fields heq =>
      rw [heq] at hm
      simp only [Bool.not_eq_true] at hm
      rw [if_neg (by simp [hm])]
      exact ih (fun m' hm' => h m' (List.mem_cons_of_mem _ hm'))
    · exact ih (fun m' hm' => h m' (List.mem_cons_of_mem _ hm'))

theorem parseLabelsAux_mem :
    ∀ (fuel : Nat) (s : String) (av : List String) (x : String),
      x ∈ parseLabelsAux fuel s av → x ∈ av := by
  intro fuel
  induction fuel with
  | zero => intro s av x hx; simp [parseLabelsAux] at hx
  | succ fuel ih =>
    intro s av x hx
    rw [parseLabelsAux] at hx
    split at hx
    · split at hx
      · exact validate_labels_mem _ _ _ hx
      · simp at hx
      · simp at hx
    · exact fallbackScan_mem (fun s' y hy => ih s' av y hy) _ x hx

theorem parseLabelsAux_malformed (fuel : Nat) (s : String) (av : List String)
    (h : malformedResponse s = true) : parseLabelsAux (fuel + 1) s av = [] := by
  rw [parseLabelsAux]
  split
  · next data heq =>
    simp only [malformedResponse, heq] at h
    split
    · next harr =>
      simp only [harr] at h
      exact absurd h (by simp)
    · rfl
    · rfl
  · next heq =>
    simp only [malformedResponse, heq] at h
    apply fallbackScan_unsuitable
    intro m hm
    have := List.all_eq_true.mp h m hm
    simpa using this

/-! ### Lemmas about `process_email` and the ledger -/

theorem dictContains_append {α : Type} (m m2 : List (String × α)) (k : String) :
    dictContains (m ++ m2) k = (dictContains m k || dictContains m2 k) := by
  simp [dictContains, List.any_append]

theorem process_email_ledger_cases (env : AgentEnv) (l : Ledger) (email : Email) :
    (process_email env l email).ledger = l
    ∨ ∃ j v, (process_email env l email).ledger = dictInsert l j v := by
  rw [process_email]
  repeat' split
  all_goals first
    | exact Or.inl rfl
    | exact Or.inr ⟨_, _, rfl⟩

theorem process_email_ledger_mono (env : AgentEnv) (l : Ledger) (email : Email)
    (k : String) (h : dictContains l k = true) :
    dictContains (process_email env l email).ledger k = true := by
  rcases process_email_ledger_cases env l email with hc | ⟨j, v, hc⟩
  · rw [hc]; exact h
  · rw [hc, dictContains_dictInsert]
    simp [h]

theorem cleanup_fold_filter (days now : Int) :
    ∀ (l : List (String × JValue)) (acc : Ledger),
      (∀ k ∈ l.map Prod.fst, dictContains acc k = false) →
      (l.map Prod.fst).Nodup →
      l.foldl
        (fun cleaned e =>
          if cleanup_keep days now e.2 then dictInsert cleaned e.1 e.2 else cleaned)
        acc
      = acc ++ l.filter (fun e => cleanup_keep days now e.2) := by
  intro l
  induction l with
  | nil => intro acc _ _; simp
  | cons e rest ih =>
    intro acc hdisj hnodup
    rw [List.map_cons] at hnodup
    have hn := List.nodup_cons.mp hnodup
    simp only [List.foldl_cons, List.filter_cons]
    by_cases hk : cleanup_keep days now e.2
    · rw [if_pos hk, if_pos hk]
      rw [dictInsert_of_not_contains _ (hdisj e.1 (by simp))]
      have hdisj2 : ∀ k ∈ rest.map Prod.fst, dictContains (acc ++ [(e.1, e.2)]) k = false := by
        intro k hkmem
        rw [dictContains_append]
        have h1 : dictContains acc k = false := hdisj k (by simp [hkmem])
        have h2 : e.1 ≠ k := by
          intro hcontra
          exact hn.1 (hcontra ▸ hkmem)
        rw [h1]
        simp [dictContains, h2]
      rw [ih (acc ++ [(e.1, e.2)]) hdisj2 hn.2]
      simp
    · rw [if_neg hk, if_neg hk]
      exact ih acc (fun k hkmem => hdisj k (by simp [hkmem])) hn.2

theorem migrate_fold_values (nowIso : String) :
    ∀ (ids : List String) (acc : Ledger),
      (∀ e ∈ acc, e.2 = JValue.str nowIso) →
      ∀ e ∈ ids.foldl (fun m id => dictInsert m id (JValue.str nowIso)) acc,
        e.2 = JValue.str nowIso := by
  intro ids
  induction ids with
  | nil => intro acc hacc e he; exact hacc e he
  | cons id rest ih =>
    intro acc hacc e he
    refine ih (dictInsert acc id (JValue.str nowIso)) ?_ e he
    intro e2 he2
    rcases mem_dictInsert he2 with h2 | h2
    · exact hacc e2 h2
    · rw [h2]

theorem migrate_fold_contains (nowIso : String) :
    ∀ (ids : List String) (acc : Ledger) (k : String),
      dictContains (ids.foldl (fun m id => dictInsert m id (JValue.str nowIso)) acc) k
        = true
      ↔ (k ∈ ids ∨ dictContains acc k = true) := by
  intro ids
  induction ids with
  | nil => intro acc k; simp
  | cons id rest ih =>
    intro acc k
    rw [List.foldl_cons, ih]
    rw [dictContains_dictInsert]
    constructor
    · rintro (h | h)
      · exact Or.inl (List.mem_cons_of_mem _ h)
      · rcases Bool.or_eq_true_iff.mp h with h1 | h1
        · simp at h1
          exact Or.inl (h1 ▸ List.mem_cons_self _ _)
        · exact Or.inr h1
    · rintro (h | h)
      · rcases List.mem_cons.mp h with rfl | h1
        · exact Or.inr (by simp)
        · exact Or.inl h1
      · exact Or.inr (by simp [h])

theorem migrate_fold_nodup (nowIso : String) :
    ∀ (ids : List String) (acc : Ledger), ((acc.map Prod.fst).Nodup) →
      (((ids.foldl (fun m id => dictInsert m id (JValue.str nowIso)) acc).map
          Prod.fst).Nodup) := by
  intro ids
  induction ids with
  | nil => intro acc h; exact h
  | cons id rest ih =>
    intro acc h
    exact ih _ (keysNodup_dictInsert _ _ h)


/-! ### Serialization-shape lemmas for the round-trip -/

theorem safeLabelChar_spec {c : Char} (h : safeLabelChar c = true) :
    0x20 ≤ c.toNat ∧ c.toNat ≤ 0x7e ∧ c ≠ '"' ∧ c ≠ '\\' ∧ c ≠ '\x7b' ∧ c ≠ '\x7d'
      ∧ c ≠ '`' := by
  simp only [safeLabelChar, Bool.and_eq_true, bne_iff_ne, ne_eq, decide_eq_true_eq] at h
  tauto

theorem safeLabel_spec {l : String} (h : safeLabel l = true) :
    ∀ c ∈ l.data, safeLabelChar c = true := by
  simpa [safeLabel, List.all_eq_true, String.toList] using h

theorem jescapeChar_safe {c : Char} (h : safeLabelChar c = true) : jescapeChar c = [c] := by
  obtain ⟨h1, h2, h3, h4, _, _, _⟩ := safeLabelChar_spec h
  have hq : c ≠ '\n' := by intro hc; subst hc; exact absurd h1 (by decide)
  have hr : c ≠ '\r' := by intro hc; subst hc; exact absurd h1 (by decide)
  have ht : c ≠ '\t' := by intro hc; subst hc; exact absurd h1 (by decide)
  have hb : c ≠ '\x08' := by intro hc; subst hc; exact absurd h1 (by decide)
  have hf : c ≠ '\x0c' := by intro hc; subst hc; exact absurd h1 (by decide)
  rw [jescapeChar, if_neg h3, if_neg h4, if_neg hq, if_neg hr, if_neg ht, if_neg hb,
    if_neg hf, if_pos ⟨h1, h2⟩]

theorem join_map_singleton {α : Type} (l : List α) (f : α → List α)
    (h : ∀ c ∈ l, f c = [c]) : (l.map f).flatten = l := by
  induction l with
  | nil => rfl
  | cons c rest ih =>
    rw [List.map_cons]
    rw [show (f c :: List.map f rest).flatten = f c ++ (List.map f rest).flatten from rfl]
    rw [h c (by simp), ih (fun c2 hc2 => h c2 (by simp [hc2]))]
    rfl

theorem jdumpsStr_safe {s : String} (h : safeLabel s = true) :
    (jdumpsStr s).data = '"' :: (s.data ++ ['"']) := by
  rw [jdumpsStr]
  rw [show s.toList = s.data from rfl]
  rw [join_map_singleton s.data jescapeChar (fun c hc => jescapeChar_safe (safeLabel_spec h c hc))]

theorem jdumpsElems_safe (L : List String) (h : ∀ l ∈ L, safeLabel l = true) :
    (jdumpsElems (L.map JValue.str)).data = serElems L := by
  induction L with
  | nil => rfl
  | cons l ls ih =>
    cases ls with
    | nil =>
      show (jdumpsVal (JValue.str l)).data = _
      rw [show jdumpsVal (JValue.str l) = jdumpsStr l from rfl,
        jdumpsStr_safe (h l (by simp)), serElems, serTail]
    | cons l2 ls2 =>
      have hstep : jdumpsElems (List.map JValue.str (l :: l2 :: ls2))
          = jdumpsVal (JValue.str l) ++ ", " ++
              jdumpsElems (List.map JValue.str (l2 :: ls2)) := rfl
      rw [hstep]
      rw [String.data_append, String.data_append]
      rw [show jdumpsVal (JValue.str l) = jdumpsStr l from rfl,
        jdumpsStr_safe (h l (by simp)),
        ih (fun l3 h3 => h l3 (by simp at h3 ⊢; tauto))]
      rw [serElems, serElems, serTail]
      simp

theorem serTail_chars (L : List String) (h : ∀ l ∈ L, safeLabel l = true) :
    ∀ c ∈ serTail L, notBrace c = true ∧ c ≠ '`' := by
  induction L with
  | nil => intro c hc; simp [serTail] at hc
  | cons l ls ih =>
    intro c hc
    rw [serTail] at hc
    rcases List.mem_cons.mp hc with rfl | hc
    · exact ⟨by decide, by decide⟩
    rcases List.mem_cons.mp hc with rfl | hc
    · exact ⟨by decide, by decide⟩
    rcases List.mem_cons.mp hc with rfl | hc
    · exact ⟨by decide, by decide⟩
    rcases List.mem_append.mp hc with hc | hc
    · obtain ⟨_, _, _, _, h5, h6, h7⟩ :=
        safeLabelChar_spec (safeLabel_spec (h l (by simp)) c hc)
      exact ⟨by simp [notBrace, h5, h6], h7⟩
    rcases List.mem_cons.mp hc with rfl | hc
    · exact ⟨by decide, by decide⟩
    · exact ih (fun l2 h2 => h l2 (by simp [h2])) c hc

theorem serElems_chars (L : List String) (h : ∀ l ∈ L, safeLabel l = true) :
    ∀ c ∈ serElems L, notBrace c = true ∧ c ≠ '`' := by
  cases L with
  | nil => intro c hc; simp [serElems] at hc
  | cons l ls =>
    intro c hc
    rw [serElems] at hc
    rcases List.mem_cons.mp hc with rfl | hc
    · exact ⟨by decide, by decide⟩
    rcases List.mem_append.mp hc with hc | hc
    · obtain ⟨_, _, _, _, h5, h6, h7⟩ :=
        safeLabelChar_spec (safeLabel_spec (h l (by simp)) c hc)
      exact ⟨by simp [notBrace, h5, h6], h7⟩
    rcases List.mem_cons.mp hc with rfl | hc
    · exact ⟨by decide, by decide⟩
    · exact serTail_chars ls (fun l2 h2 => h l2 (by simp [h2])) c hc

theorem serMid_chars (L : List String) (h : ∀ l ∈ L, safeLabel l = true) :
    ∀ c ∈ serMid L, notBrace c = true ∧ c ≠ '`' := by
  intro c hc
  rw [serMid] at hc
  rcases List.mem_cons.mp hc with rfl | hc
  · exact ⟨by decide, by decide⟩
  rcases List.mem_cons.mp hc with rfl | hc
  · exact ⟨by decide, by decide⟩
  rcases List.mem_cons.mp hc with rfl | hc
  · exact ⟨by decide, by decide⟩
  rcases List.mem_cons.mp hc with rfl | hc
  · exact ⟨by decide, by decide⟩
  rcases List.mem_cons.mp hc with rfl | hc
  · exact ⟨by decide, by decide⟩
  rcases List.mem_cons.mp hc with rfl | hc
  · exact ⟨by decide, by decide⟩
  rcases List.mem_cons.mp hc with rfl | hc
  · exact ⟨by decide, by decide⟩
  rcases List.mem_cons.mp hc with rfl | hc
  · exact ⟨by decide, by decide⟩
  rcases List.mem_cons.mp hc with rfl | hc
  · exact ⟨by decide, by decide⟩
  rcases List.mem_cons.mp hc with rfl | hc
  · exact ⟨by decide, by decide⟩
  rcases List.mem_cons.mp hc with rfl | hc
  · exact ⟨by decide, by decide⟩
  rcases List.mem_append.mp hc with hc | hc
  · exact serElems_chars L h c hc
  rcases List.mem_cons.mp hc with rfl | hc
  · exact ⟨by decide, by decide⟩
  · simp at hc

theorem serialize_labels_data (L : List String) (h : ∀ l ∈ L, safeLabel l = true) :
    (serialize_labels L).data = '\x7b' :: (serMid L ++ ['\x7d']) := by
  rw [serialize_labels]
  rw [show jdumpsVal (JValue.obj [("labels", JValue.arr (L.map JValue.str))])
      = "\x7b" ++ ((jdumpsStr "labels" ++ ": "
          ++ ("[" ++ jdumpsElems (L.map JValue.str) ++ "]"))) ++ "\x7d" by
    rw [jdumpsVal, jdumpsFields, jdumpsVal]]
  simp only [String.data_append]
  rw [jdumpsElems_safe L h]
  rw [show (jdumpsStr "labels").data = ['"', 'l', 'a', 'b', 'e', 'l', 's', '"'] from rfl]
  simp [serMid]


/-! ### Preprocessing lemmas for the round-trip -/

theorem pyStripL_brace (mid : List Char) :
    pyStripL ('\x7b' :: (mid ++ ['\x7d'])) = '\x7b' :: (mid ++ ['\x7d']) := by
  have h1 : pyIsSpace '\x7b' = false := rfl
  have h2 : pyIsSpace '\x7d' = false := rfl
  rw [pyStripL]
  rw [List.dropWhile_cons_of_neg (by simp [h1])]
  rw [show ('\x7b' :: (mid ++ ['\x7d'])).reverse = '\x7d' :: (mid.reverse ++ ['\x7b']) by
    simp]
  rw [List.dropWhile_cons_of_neg (by simp [h2])]
  simp

theorem containsSub_head_mem {l : List Char} {x : Char} {xs : List Char}
    (h : containsSub l (x :: xs) = true) : x ∈ l := by
  induction l with
  | nil => simp [containsSub] at h
  | cons c t ih =>
    rw [containsSub] at h
    rcases Bool.or_eq_true_iff.mp h with h1 | h1
    · have : x = c := by
        simp [List.isPrefixOf] at h1
        exact h1.1
      rw [this]
      exact List.mem_cons_self _ _
    · exact List.mem_cons_of_mem _ (ih h1)

theorem no_tripleTick {l : List Char} (h : '`' ∉ l) :
    containsSub l tripleTick = false := by
  cases hc : containsSub l tripleTick
  · rfl
  · exact absurd (containsSub_head_mem hc) h

theorem containsSub_of_prefix {l pat : List Char} (h : pat.isPrefixOf l = true) :
    containsSub l pat = true := by
  cases l with
  | nil =>
    cases pat with
    | nil => rfl
    | cons a b => simp [List.isPrefixOf] at h
  | cons c t =>
    rw [containsSub]
    simp [h]

theorem takeWhile_all_append {p : Char → Bool} {mid : List Char} {b : Char}
    {rest : List Char} (hmid : ∀ c ∈ mid, p c = true) (hb : p b = false) :
    (mid ++ b :: rest).takeWhile p = mid := by
  induction mid with
  | nil => simp [List.takeWhile_cons, hb]
  | cons c t ih =>
    rw [List.cons_append, List.takeWhile_cons, hmid c (by simp),
      ih (fun c2 hc2 => hmid c2 (by simp [hc2]))]
    simp

theorem findLabelsObj_whole {mid : List Char}
    (hmid : ∀ c ∈ mid, notBrace c = true)
    (hlab : containsSub mid labelsNeedle = true) :
    findLabelsObj ('\x7b' :: (mid ++ ['\x7d'])) = some ('\x7b' :: (mid ++ ['\x7d'])) := by
  have hrun : (mid ++ '\x7d' :: []).takeWhile notBrace = mid :=
    takeWhile_all_append hmid rfl
  have hcond : containsSub mid labelsNeedle = true
      ∧ (List.drop mid.length (mid ++ ['\x7d'])).head? = some '\x7d' :=
    ⟨hlab, by rw [List.drop_left]; rfl⟩
  rw [findLabelsObj]
  simp only [if_pos rfl, hrun]
  rw [if_pos hcond]
  simp

theorem preprocess_serialize (L : List String) (h : ∀ l ∈ L, safeLabel l = true) :
    preprocessResponse (serialize_labels L) = serialize_labels L := by
  have hdata := serialize_labels_data L h
  have hchars := serMid_chars L h
  have htl : (serialize_labels L).toList = (serialize_labels L).data := rfl
  have hnotick : containsSub (serialize_labels L).toList tripleTick = false := by
    rw [htl, hdata]
    apply no_tripleTick
    intro hmem
    rcases List.mem_cons.mp hmem with h1 | h1
    · exact absurd h1 (by decide)
    rcases List.mem_append.mp h1 with h2 | h2
    · exact absurd rfl (hchars '`' h2).2
    · rcases List.mem_cons.mp h2 with h3 | h3
      · exact absurd h3 (by decide)
      · simp at h3
  have hstrip : pyStrip (serialize_labels L) = serialize_labels L := by
    rw [pyStrip, htl, hdata, pyStripL_brace, ← hdata]
  have hnarrow : findLabelsObj (serialize_labels L).toList
      = some ((serialize_labels L).toList) := by
    rw [htl, hdata]
    apply findLabelsObj_whole
    · intro c hc
      exact (hchars c hc).1
    · apply containsSub_of_prefix
      rw [serMid]
      simp [labelsNeedle, List.isPrefixOf]
  rw [preprocessResponse]
  simp only [hstrip, hnotick, Bool.false_eq_true, if_false, hnarrow]
  rfl


/-! ### Parser lemmas for the round-trip -/

theorem skipWs_cons {c : Char} (l : List Char) (h : jIsWs c = false) :
    skipWs (c :: l) = c :: l := by
  rw [skipWs, List.dropWhile_cons_of_neg (by simp [h])]

theorem skipWs_space (l : List Char) : skipWs (' ' :: l) = skipWs l := by
  rw [skipWs, skipWs, List.dropWhile_cons_of_pos (by decide)]

theorem parseJStringF_safe :
    ∀ (cs : List Char) (fuel : Nat) (rest : List Char),
      cs.length + 1 ≤ fuel → (∀ c ∈ cs, safeLabelChar c = true) →
      parseJStringF fuel (cs ++ '"' :: rest) = some (cs, rest) := by
  intro cs
  induction cs with
  | nil =>
    intro fuel rest hf _
    obtain ⟨g, rfl⟩ : ∃ g, fuel = g + 1 := ⟨fuel - 1, by omega⟩
    simp [parseJStringF]
  | cons c cs ih =>
    intro fuel rest hf hsafe
    obtain ⟨g, rfl⟩ : ∃ g, fuel = g + 1 := ⟨fuel - 1, by omega⟩
    obtain ⟨h1, _, h3, h4, _, _, _⟩ := safeLabelChar_spec (hsafe c (by simp))
    have hc20 : ¬ c.toNat < 0x20 := by omega
    simp only [List.length_cons] at hf
    rw [show ((c :: cs) ++ '"' :: rest) = c :: (cs ++ '"' :: rest) from rfl]
    simp only [parseJStringF]
    rw [if_neg h3, if_neg h4, if_neg hc20]
    rw [ih g rest (by omega) (fun c2 hc2 => hsafe c2 (by simp [hc2]))]
    rfl

theorem parseJString_safe (cs : List Char) (rest : List Char)
    (hsafe : ∀ c ∈ cs, safeLabelChar c = true) :
    parseJString (cs ++ '"' :: rest) = some (cs, rest) := by
  rw [parseJString]
  refine parseJStringF_safe cs _ rest ?_ hsafe
  simp [List.length_append]
  omega

theorem parseVal_quoted {l : List Char} {cs rest : List Char} (g : Nat)
    (hskip : skipWs l = '"' :: (cs ++ '"' :: rest))
    (hsafe : ∀ c ∈ cs, safeLabelChar c = true) :
    parseVal (g + 1) l = some (JValue.str (String.mk cs), rest) := by
  rw [parseVal, hskip]
  simp only
  rw [if_neg (by decide), if_neg (by decide), if_true]
  rw [parseJString_safe cs rest hsafe]


theorem parseArrTail_rbracket (g : Nat) (r : List Char) :
    parseArrTail (g + 1) (']' :: r) = some ([], r) := rfl

theorem parseArrTail_comma (g : Nat) (r : List Char) :
    parseArrTail (g + 1) (',' :: r)
      = (match parseVal g r with
        | some (v, r2) =>
          (match parseArrTail g r2 with
          | some (vs, r3) => some (v :: vs, r3)
          | none => none)
        | none => none) := rfl

theorem parseArrBody_rbracket (g : Nat) (r : List Char) :
    parseArrBody (g + 1) (']' :: r) = some ([], r) := rfl

theorem parseArrBody_quote (g : Nat) (r : List Char) :
    parseArrBody (g + 1) ('"' :: r)
      = (match parseVal g ('"' :: r) with
        | some (v, r2) =>
          (match parseArrTail g r2 with
          | some (vs, r3) => some (v :: vs, r3)
          | none => none)
        | none => none) := rfl

theorem parseVal_sparr (g : Nat) (r : List Char) :
    parseVal (g + 1) (' ' :: '[' :: r)
      = (match parseArrBody g r with
        | some (vs, r2) => some (JValue.arr vs, r2)
        | none => none) := rfl

theorem parseVal_lbrace (g : Nat) (r : List Char) :
    parseVal (g + 1) ('\x7b' :: r)
      = (match parseObjBody g r with
        | some (fs, r2) => some (JValue.obj (buildJObj fs), r2)
        | none => none) := rfl

theorem parseObjTail_rbrace (g : Nat) (r : List Char) :
    parseObjTail (g + 1) ('\x7d' :: r) = some ([], r) := rfl

theorem parseObjBody_quote (g : Nat) (r : List Char) :
    parseObjBody (g + 1) ('"' :: r)
      = (match parseJString r with
        | some (k, r2) =>
          (match skipWs r2 with
          | ':' :: r3 =>
            (match parseVal g r3 with
            | some (v, r4) =>
              (match parseObjTail g r4 with
              | some (fs, r5) => some ((String.mk k, v) :: fs, r5)
              | none => none)
            | none => none)
          | _ => none)
        | none => none) := rfl

theorem parseArrTail_ser :
    ∀ (L : List String) (fuel : Nat) (rest : List Char),
      2 * L.length + 1 ≤ fuel → (∀ l ∈ L, safeLabel l = true) →
      parseArrTail fuel (serTail L ++ ']' :: rest) = some (L.map JValue.str, rest) := by
  intro L
  induction L with
  | nil =>
    intro fuel rest hf _
    obtain ⟨g, rfl⟩ : ∃ g, fuel = g + 1 := ⟨fuel - 1, by omega⟩
    rw [serTail, List.nil_append]
    exact parseArrTail_rbracket g rest
  | cons l ls ih =>
    intro fuel rest hf hsafe
    simp only [List.length_cons] at hf
    obtain ⟨g2, rfl⟩ : ∃ g2, fuel = (g2 + 1) + 1 := ⟨fuel - 2, by omega⟩
    rw [serTail]
    rw [show (',' :: ' ' :: '"' :: (l.data ++ '"' :: serTail ls)) ++ ']' :: rest
        = ',' :: ' ' :: '"' :: (l.data ++ '"' :: (serTail ls ++ ']' :: rest)) by simp]
    rw [parseArrTail_comma]
    rw [parseVal_quoted g2
      (by rw [skipWs_space, skipWs_cons _ (by decide)])
      (safeLabel_spec (hsafe l (by simp)))]
    have hi := ih (g2 + 1) rest (by omega) (fun l2 h2 => hsafe l2 (by simp [h2]))
    simp only [hi, List.map_cons, show String.mk l.data = l from rfl]

theorem parseArrBody_ser :
    ∀ (L : List String) (fuel : Nat) (rest : List Char),
      2 * L.length + 2 ≤ fuel → (∀ l ∈ L, safeLabel l = true) →
      parseArrBody fuel (serElems L ++ ']' :: rest) = some (L.map JValue.str, rest) := by
  intro L fuel rest hf hsafe
  cases L with
  | nil =>
    obtain ⟨g, rfl⟩ : ∃ g, fuel = g + 1 := ⟨fuel - 1, by omega⟩
    rw [serElems, List.nil_append]
    exact parseArrBody_rbracket g rest
  | cons l ls =>
    simp only [List.length_cons] at hf
    obtain ⟨g2, rfl⟩ : ∃ g2, fuel = (g2 + 1) + 1 := ⟨fuel - 2, by omega⟩
    rw [serElems]
    rw [show ('"' :: (l.data ++ '"' :: serTail ls)) ++ ']' :: rest
        = '"' :: (l.data ++ '"' :: (serTail ls ++ ']' :: rest)) by simp]
    rw [parseArrBody_quote]
    rw [parseVal_quoted g2 (skipWs_cons _ (by decide))
      (safeLabel_spec (hsafe l (by simp)))]
    have hi := parseArrTail_ser ls (g2 + 1) rest (by omega)
      (fun l2 h2 => hsafe l2 (by simp [h2]))
    simp only [hi, List.map_cons, show String.mk l.data = l from rfl]

theorem serTail_length (L : List String) : L.length ≤ (serTail L).length := by
  induction L with
  | nil => simp [serTail]
  | cons l ls ih => simp [serTail]; omega

theorem serElems_length (L : List String) : L.length ≤ (serElems L).length := by
  cases L with
  | nil => simp [serElems]
  | cons l ls =>
    have := serTail_length ls
    simp [serElems]
    omega

theorem parseVal_serialize (L : List String) (h : ∀ l ∈ L, safeLabel l = true) :
    ∀ (fuel : Nat), 2 * L.length + 6 ≤ fuel →
      parseVal fuel ('\x7b' :: (serMid L ++ ['\x7d']))
        = some (JValue.obj [("labels", JValue.arr (L.map JValue.str))], []) := by
  intro fuel hf
  obtain ⟨g2, rfl⟩ : ∃ g2, fuel = ((g2 + 1) + 1) + 1 := ⟨fuel - 3, by omega⟩
  rw [parseVal_lbrace]
  rw [show serMid L ++ ['\x7d']
      = '"' :: (['l', 'a', 'b', 'e', 'l', 's']
          ++ '"' :: (':' :: ' ' :: '[' :: (serElems L ++ ']' :: ['\x7d']))) by
    rw [serMid]; simp]
  rw [parseObjBody_quote]
  rw [parseJString_safe ['l', 'a', 'b', 'e', 'l', 's'] _ (by decide)]
  simp only
  rw [skipWs_cons _ (by decide)]
  simp only
  rw [parseVal_sparr]
  rw [parseArrBody_ser L g2 ['\x7d'] (by omega) h]
  simp only
  rw [parseObjTail_rbrace]
  rfl

theorem jloads_serialize (L : List String) (h : ∀ l ∈ L, safeLabel l = true) :
    jloads (serialize_labels L)
      = some (JValue.obj [("labels", JValue.arr (L.map JValue.str))]) := by
  have hdata := serialize_labels_data L h
  rw [jloads]
  rw [show (serialize_labels L).toList = (serialize_labels L).data from rfl, hdata]
  rw [parseVal_serialize L h _ (by
    have h1 := serElems_length L
    simp [serMid]
    omega)]
  rfl


theorem resolve_label_canonical (av : List String) {l : String}
    (h : ∃ c ∈ av, pyLower c = pyLower l) :
    resolve_label av (JValue.str l) = some (canonicalize av l) := by
  rw [resolve_label, canonicalize]
  by_cases hc : av.contains l
  · have hm : l ∈ av := by simpa using hc
    simp [hm]
  · rw [if_neg hc, if_neg hc]
    have htot := lower_lookup_total h
    cases hl : dictLookup (available_labels_lower av) (pyLower l) with
    | none => rw [hl] at htot; simp at htot
    | some v => rfl

theorem filterMap_resolve_canonical (av : List String) :
    ∀ (L : List String), (∀ l ∈ L, ∃ c ∈ av, pyLower c = pyLower l) →
      (L.map JValue.str).filterMap (resolve_label av) = L.map (canonicalize av) := by
  intro L
  induction L with
  | nil => intro _; rfl
  | cons l ls ih =>
    intro h
    rw [List.map_cons, List.map_cons, List.filterMap_cons,
      resolve_label_canonical av (h l (by simp)),
      ih (fun l2 h2 => h l2 (by simp [h2]))]

theorem canonicalize_spec (av : List String) (l : String)
    (h : ∃ c ∈ av, pyLower c = pyLower l) :
    canonicalize av l ∈ av ∧ pyLower (canonicalize av l) = pyLower l := by
  rw [canonicalize]
  by_cases hc : av.contains l
  · rw [if_pos hc]
    exact ⟨by simpa using hc, rfl⟩
  · rw [if_neg hc]
    have htot := lower_lookup_total h
    cases hl : dictLookup (available_labels_lower av) (pyLower l) with
    | none => rw [hl] at htot; simp at htot
    | some v =>
      obtain ⟨hv1, hv2⟩ := lower_lookup_spec hl
      exact ⟨hv1, hv2⟩

/-! ### Claims -/

/-- C2: for every parsed labels array and catalog, the validation stage
keeps exactly the strings resolving against the catalog (exactly, or
case-insensitively with the canonical casing substituted), drops
non-strings and non-matching strings without failing, preserves order and
duplicates (it is a `filterMap`), and every output label is a catalog
member. -/
theorem claim_label_filtering (labels : List JValue) (available_labels : List String) :
    validate_labels labels available_labels
      = labels.filterMap (resolve_label available_labels)
    ∧ ∀ x ∈ validate_labels labels available_labels, x ∈ available_labels :=
  ⟨validate_labels_eq_filterMap labels available_labels,
   validate_labels_mem labels available_labels⟩

/-- C4: the response parser is total — every result it produces is drawn
from the catalog (no exception surfaces, the fuel-bounded fallback
recursion mirrors the interpreter's recursion limit whose overrun the
source swallows) — and on malformed input (undecodable JSON with no
suitable fallback candidate, an unexpected decoded shape, or a `labels`
member that is not a list) it returns the empty result. -/
theorem claim_response_totality (s : String) (available_labels : List String) :
    (∀ x ∈ parse_labels_from_response s available_labels, x ∈ available_labels)
    ∧ (malformedResponse s = true → parse_labels_from_response s available_labels = []) :=
  ⟨fun x hx => parseLabelsAux_mem 1000 s available_labels x hx,
   fun h => parseLabelsAux_malformed 999 s available_labels h⟩

/-- C4 witness: a concrete malformed response yields the empty result. -/
theorem claim_response_totality_witness :
    malformedResponse "there is no json here" = true
    ∧ parse_labels_from_response "there is no json here" ["AWS"] = [] :=
  ⟨by decide, (claim_response_totality "there is no json here" ["AWS"]).2 (by decide)⟩

/-- C5: an unprocessed message whose classification returns the empty
result is still recorded in the ledger under the current timestamp, the
ledger is persisted (one `_save_state` attempt), and the call reports
`False`. -/
theorem claim_empty_still_marked (env : AgentEnv) (processed : Ledger) (email : Email)
    (i s : String) (hid : email.id = some i) (hne : i ≠ "")
    (hsub : email.subject = some s) (hnot : dictContains processed i = false)
    (hcl : env.classify email = Except.ok ([] : List String)) :
    process_email env processed email
      = ⟨false, dictInsert processed i (JValue.str env.nowIso), 1, 1⟩ := by
  simp [process_email, hid, hne, hnot, hsub, hcl]

/-- C5 witness at a concrete message and environment. -/
theorem claim_empty_still_marked_witness :
    process_email envEmpty [] ⟨some "m1", some "Hello"⟩
      = ⟨false, [("m1", JValue.str "1970-01-01T00:00:00+00:00")], 1, 1⟩ := by
  rw [claim_empty_still_marked envEmpty [] ⟨some "m1", some "Hello"⟩ "m1" "Hello"
    rfl (by decide) rfl rfl rfl]
  rfl

/-- C10: a message dict with an id but no subject is rejected with
`False` and the ledger is left unchanged — whether or not the id is
already recorded — because `email["subject"]` raises `KeyError` on both
paths and the blanket handler swallows it; the classifier is never
invoked and nothing is persisted. -/
theorem claim_missing_subject (env : AgentEnv) (processed : Ledger) (email : Email)
    (i : String) (hid : email.id = some i) (hsub : email.subject = none) :
    process_email env processed email = ⟨false, processed, 0, 0⟩ := by
  by_cases hi : i = ""
  · simp [process_email, hid, hi]
  · by_cases hc : dictContains processed i
    · simp [process_email, hid, hi, hc, hsub]
    · simp [process_email, hid, hi, hc, hsub]

/-- C10 witness: the id is already recorded, yet the call returns `False`
and the ledger entry set is untouched. -/
theorem claim_missing_subject_witness :
    process_email envA [("m1", JValue.str "t")] ⟨some "m1", none⟩
      = ⟨false, [("m1", JValue.str "t")], 0, 0⟩ :=
  claim_missing_subject envA [("m1", JValue.str "t")] ⟨some "m1", none⟩ "m1" rfl rfl

/-- C1 counterexample: for a message dict that has an id but no subject,
processing it twice against a provider that would return identical labels
makes zero backend calls (not one), and the second call is not treated as
success — refuting the claim as universally stated over message dicts
with an identifier. -/
theorem claim_idempotent_cex :
    (process_email envA [] ⟨some "m1", none⟩).classifyCalls
        + (process_email envA (process_email envA [] ⟨some "m1", none⟩).ledger
            ⟨some "m1", none⟩).classifyCalls = 0
    ∧ (process_email envA (process_email envA [] ⟨some "m1", none⟩).ledger
        ⟨some "m1", none⟩).ok = false
    ∧ ¬ ((process_email envA [] ⟨some "m1", none⟩).classifyCalls
          + (process_email envA (process_email envA [] ⟨some "m1", none⟩).ledger
              ⟨some "m1", none⟩).classifyCalls = 1
        ∧ (process_email envA (process_email envA [] ⟨some "m1", none⟩).ledger
            ⟨some "m1", none⟩).ok = true) := by
  refine ⟨rfl, rfl, ?_⟩
  intro h
  exact absurd h.1 (by decide)

/-- C1 (amended): for a message dict with an identifier and a subject,
not yet in the ledger, whose classification succeeds and whose label
application does not raise, processing twice makes exactly one backend
call: the first call classifies and records the id, the second finds the
id in the ledger and reports success without invoking the provider. -/
theorem claim_idempotent (env : AgentEnv) (processed : Ledger) (email : Email)
    (i s : String) (ls : List String) (hid : email.id = some i) (hne : i ≠ "")
    (hsub : email.subject = some s) (hnot : dictContains processed i = false)
    (hcl : env.classify email = Except.ok ls)
    (happ : ∀ ids, env.addLabels i ids = Except.ok ()) :
    (process_email env processed email).classifyCalls = 1
    ∧ dictContains (process_email env processed email).ledger i = true
    ∧ (process_email env (process_email env processed email).ledger email).classifyCalls
        = 0
    ∧ (process_email env (process_email env processed email).ledger email).ok = true
    ∧ (process_email env (process_email env processed email).ledger email).ledger
        = (process_email env processed email).ledger := by
  have hcont : dictContains (dictInsert processed i (JValue.str env.nowIso)) i = true := by
    rw [dictContains_dictInsert]; simp
  have h1 : process_email env processed email
      = ⟨process_email env processed email |>.ok,
          dictInsert processed i (JValue.str env.nowIso), 1, 1⟩ := by
    cases ls with
    | nil => simp [process_email, hid, hne, hnot, hsub, hcl]
    | cons l0 ls0 => simp [process_email, hid, hne, hnot, hsub, hcl, happ]
  rw [h1]
  have h2 : process_email env (dictInsert processed i (JValue.str env.nowIso)) email
      = ⟨true, dictInsert processed i (JValue.str env.nowIso), 0, 0⟩ := by
    simp [process_email, hid, hne, hcont, hsub]
  exact ⟨rfl, hcont, by rw [h2], by rw [h2], by rw [h2]⟩

/-- C1 witness at a concrete message, ledger and benign environment. -/
theorem claim_idempotent_witness :
    (process_email envA [] ⟨some "m1", some "Hi"⟩).classifyCalls = 1
    ∧ dictContains (process_email envA [] ⟨some "m1", some "Hi"⟩).ledger "m1" = true
    ∧ (process_email envA (process_email envA [] ⟨some "m1", some "Hi"⟩).ledger
        ⟨some "m1", some "Hi"⟩).classifyCalls = 0
    ∧ (process_email envA (process_email envA [] ⟨some "m1", some "Hi"⟩).ledger
        ⟨some "m1", some "Hi"⟩).ok = true
    ∧ (process_email envA (process_email envA [] ⟨some "m1", some "Hi"⟩).ledger
        ⟨some "m1", some "Hi"⟩).ledger
        = (process_email envA [] ⟨some "m1", some "Hi"⟩).ledger :=
  claim_idempotent envA [] ⟨some "m1", some "Hi"⟩ "m1" "Hi" ["Work"] rfl (by decide)
    rfl rfl rfl (fun _ => rfl)

/-- C6 counterexample: when the exception occurs in the persist step, the
message IS marked processed (its id is in the ledger afterwards) and the
call reports success — `_save_state` swallows its own failures — refuting
the claim for the persist third of "classify/label/persist". -/
theorem claim_failure_isolation_cex :
    envSaveFail.saveResult = Except.error ()
    ∧ (process_email envSaveFail [] ⟨some "m1", some "s"⟩).ok = true
    ∧ dictContains (process_email envSaveFail [] ⟨some "m1", some "s"⟩).ledger "m1"
        = true
    ∧ ¬ ((process_email envSaveFail [] ⟨some "m1", some "s"⟩).ok = false
        ∧ dictContains (process_email envSaveFail [] ⟨some "m1", some "s"⟩).ledger "m1"
            = false) :=
  ⟨rfl, rfl, by decide, by decide⟩

/-- C6 (amended): an exception raised during the classify or the
label-application step aborts that message only: it is reported `False`,
the ledger is unchanged (so the message is retried on the next poll), and
in a batch the earlier messages' ledger entries survive while later
messages are still attempted against the ledger as of the failure.
Persistence failures, by contrast, are swallowed inside `_save_state`
(see the counterexample). -/
theorem claim_failure_isolation (env : AgentEnv) :
    (∀ (l : Ledger) (email : Email) (i s : String),
      email.id = some i → i ≠ "" → email.subject = some s →
      dictContains l i = false → env.classify email = Except.error () →
      process_email env l email = ⟨false, l, 1, 0⟩)
    ∧ (∀ (l : Ledger) (email : Email) (i s : String) (ls : List String),
      email.id = some i → i ≠ "" → email.subject = some s →
      dictContains l i = false → env.classify email = Except.ok ls →
      (ls.filterMap (fun label => dictLookup env.label_id_map label)).isEmpty = false →
      env.addLabels i (ls.filterMap (fun label => dictLookup env.label_id_map label))
          = Except.error () →
      process_email env l email = ⟨false, l, 1, 0⟩)
    ∧ (∀ (l : Ledger) (A B C : Email) (i s : String),
      B.id = some i → i ≠ "" → B.subject = some s →
      dictContains (process_email env l A).ledger i = false →
      env.classify B = Except.error () →
      processBatch env l [A, B, C]
        = ((if (process_email env l A).ok then 1 else 0)
            + (if (process_email env (process_email env l A).ledger C).ok then 1 else 0),
           (process_email env (process_email env l A).ledger C).ledger)
      ∧ ∀ k, dictContains (process_email env l A).ledger k = true →
          dictContains (processBatch env l [A, B, C]).2 k = true) := by
  have habort : ∀ (l : Ledger) (email : Email) (i s : String),
      email.id = some i → i ≠ "" → email.subject = some s →
      dictContains l i = false → env.classify email = Except.error () →
      process_email env l email = ⟨false, l, 1, 0⟩ := by
    intro l email i s hid hne hsub hnot hcl
    simp [process_email, hid, hne, hnot, hsub, hcl]
  refine ⟨habort, ?_, ?_⟩
  · intro l email i s ls hid hne hsub hnot hcl hids happ
    have hls : ls.isEmpty = false := by
      cases ls with
      | nil => simp at hids
      | cons a b => rfl
    simp [process_email, hid, hne, hnot, hsub, hcl, hls, hids, happ]
  · intro l A B C i s hid hne hsub hnot hcl
    have hB : process_email env (process_email env l A).ledger B
        = ⟨false, (process_email env l A).ledger, 1, 0⟩ :=
      habort _ B i s hid hne hsub hnot hcl
    have hfold : processBatch env l [A, B, C]
        = ((if (process_email env l A).ok then 1 else 0)
            + (if (process_email env (process_email env l A).ledger C).ok then 1 else 0),
           (process_email env (process_email env l A).ledger C).ledger) := by
      simp only [processBatch, List.foldl_cons, List.foldl_nil, hB]
      simp
    refine ⟨hfold, ?_⟩
    intro k hk
    rw [hfold]
    exact process_email_ledger_mono env _ C k hk

/-- C6 witness: concrete instances for the classify-abort, the
label-abort and the batch-isolation parts. -/
theorem claim_failure_isolation_witness :
    process_email envClassifyFail [] ⟨some "m1", some "s"⟩ = ⟨false, [], 1, 0⟩
    ∧ process_email envLabelFail [] ⟨some "m1", some "s"⟩ = ⟨false, [], 1, 0⟩
    ∧ processBatch envBoomB [] [⟨some "mA", some "a"⟩, ⟨some "mB", some "b"⟩,
        ⟨some "mC", some "c"⟩]
        = ((if (process_email envBoomB [] ⟨some "mA", some "a"⟩).ok then 1 else 0)
            + (if (process_email envBoomB
                (process_email envBoomB [] ⟨some "mA", some "a"⟩).ledger
                ⟨some "mC", some "c"⟩).ok then 1 else 0),
           (process_email envBoomB
              (process_email envBoomB [] ⟨some "mA", some "a"⟩).ledger
              ⟨some "mC", some "c"⟩).ledger) :=
  ⟨(claim_failure_isolation envClassifyFail).1 [] _ "m1" "s" rfl (by decide) rfl rfl rfl,
   (claim_failure_isolation envLabelFail).2.1 [] _ "m1" "s" ["Work"] rfl (by decide)
     rfl rfl rfl (by decide) rfl,
   ((claim_failure_isolation envBoomB).2.2 [] ⟨some "mA", some "a"⟩
     ⟨some "mB", some "b"⟩ ⟨some "mC", some "c"⟩ "mB" "b" rfl (by decide) rfl
     (by decide) rfl).1⟩

/-- C7: over a ledger with distinct ids, pruning with a non-positive
retention returns the mapping unchanged, and with a positive retention it
keeps exactly the entries whose timestamp parses to an aware datetime at
or after `now - retention_days` — strictly older, unparsable and naive
timestamps are removed. -/
theorem claim_prune (processed : Ledger) (days now : Int)
    (hkeys : (processed.map Prod.fst).Nodup) :
    (days ≤ 0 → cleanup_old_state days now processed = processed)
    ∧ (0 < days → cleanup_old_state days now processed
        = processed.filter (fun e => cleanup_keep days now e.2)) := by
  constructor
  · intro h
    simp [cleanup_old_state, h]
  · intro h
    rw [cleanup_old_state, if_neg (by omega)]
    simpa using cleanup_fold_filter days now processed []
      (by intro k _; simp [dictContains]) hkeys

/-- C7 witness: entries aged 10, 3 and 0 days with now at day 10:
retention 7 keeps exactly the 3- and 0-day entries; retention 0 keeps all
three. -/
theorem claim_prune_witness :
    cleanup_old_state 7 (10 * microsPerDay) ledger3
      = [("b", JValue.str "1970-01-08T00:00:00+00:00"),
         ("c", JValue.str "1970-01-11T00:00:00+00:00")]
    ∧ cleanup_old_state 0 (10 * microsPerDay) ledger3 = ledger3 := by
  constructor
  · rw [(claim_prune ledger3 7 (10 * microsPerDay) (by decide)).2 (by decide)]
    rfl
  · exact (claim_prune ledger3 0 (10 * microsPerDay) (by decide)).1 (by decide)

/-- C8: loading a state file whose `processed_emails` member is a bare
list of identifiers produces a ledger in which every entry carries the
load-time timestamp, whose id set is exactly the set of listed ids, and
whose every entry is within the retention window when retention is
enabled. -/
theorem claim_legacy_migration (ids : List String) (content nowIso : String)
    (days now : Int)
    (hjson : jloads content = some (JValue.obj
      [("processed_emails", JValue.arr (ids.map JValue.str))]))
    (hnow : fromisoformat nowIso = some (now, some 0)) :
    (∀ e ∈ load_state days now nowIso (some content), e.2 = JValue.str nowIso)
    ∧ (∀ id, dictContains (load_state days now nowIso (some content)) id = true
        ↔ id ∈ ids)
    ∧ (∀ e ∈ load_state days now nowIso (some content),
        days ≤ 0 ∨ cleanup_keep days now e.2 = true) := by
  have hlook : dictLookup
      [("processed_emails", JValue.arr (ids.map JValue.str))] "processed_emails"
      = some (JValue.arr (ids.map JValue.str)) := rfl
  have hfold : (ids.map JValue.str).foldl
      (fun m v =>
        match v with
        | JValue.str email_id => dictInsert m email_id (JValue.str nowIso)
        | _ => m) []
      = ids.foldl (fun m id => dictInsert m id (JValue.str nowIso)) [] := by
    rw [List.foldl_map]
  have hload : load_state days now nowIso (some content)
      = cleanup_old_state days now
          (ids.foldl (fun m id => dictInsert m id (JValue.str nowIso)) []) := by
    rw [load_state, hjson]
    simp only [hlook, Option.getD_some, hfold]
  have hvals : ∀ e ∈ ids.foldl (fun m id => dictInsert m id (JValue.str nowIso)) [],
      e.2 = JValue.str nowIso :=
    migrate_fold_values nowIso ids [] (by simp)
  rcases le_or_lt days 0 with hd | hd
  · have hid : cleanup_old_state days now
        (ids.foldl (fun m id => dictInsert m id (JValue.str nowIso)) [])
        = ids.foldl (fun m id => dictInsert m id (JValue.str nowIso)) [] := by
      simp [cleanup_old_state, hd]
    rw [hload, hid]
    refine ⟨hvals, ?_, fun e _ => Or.inl hd⟩
    intro id
    rw [migrate_fold_contains]
    simp [dictContains]
  · have hkeep : cleanup_keep days now (JValue.str nowIso) = true := by
      rw [cleanup_keep, hnow]
      simp only [decide_eq_true_eq]
      have hmu : (0 : Int) < microsPerDay := by norm_num [microsPerDay]
      nlinarith
    have hnodup := migrate_fold_nodup nowIso ids [] (by simp)
    have hfilter : cleanup_old_state days now
        (ids.foldl (fun m id => dictInsert m id (JValue.str nowIso)) [])
        = (ids.foldl (fun m id => dictInsert m id (JValue.str nowIso)) []).filter
            (fun e => cleanup_keep days now e.2) := by
      rw [cleanup_old_state, if_neg (by omega)]
      simpa using cleanup_fold_filter days now
        (ids.foldl (fun m id => dictInsert m id (JValue.str nowIso)) []) []
        (by intro k _; simp [dictContains]) hnodup
    have hall : (ids.foldl (fun m id => dictInsert m id (JValue.str nowIso)) []).filter
        (fun e => cleanup_keep days now e.2)
        = ids.foldl (fun m id => dictInsert m id (JValue.str nowIso)) [] := by
      apply List.filter_eq_self.mpr
      intro e he
      rw [hvals e he]
      exact hkeep
    rw [hload, hfilter, hall]
    refine ⟨hvals, ?_, ?_⟩
    · intro id
      rw [migrate_fold_contains]
      simp [dictContains]
    · intro e he
      rw [hvals e he]
      exact Or.inr hkeep

/-- C8 witness: a concrete legacy file with a duplicate id, loaded at the
epoch with retention 7. -/
theorem claim_legacy_migration_witness :
    (∀ e ∈ load_state 7 0 "1970-01-01T00:00:00+00:00"
        (some "\x7b\"processed_emails\": [\"x\", \"y\", \"x\"]\x7d"),
      e.2 = JValue.str "1970-01-01T00:00:00+00:00")
    ∧ (∀ id, dictContains (load_state 7 0 "1970-01-01T00:00:00+00:00"
        (some "\x7b\"processed_emails\": [\"x\", \"y\", \"x\"]\x7d")) id = true
        ↔ id ∈ ["x", "y", "x"])
    ∧ (∀ e ∈ load_state 7 0 "1970-01-01T00:00:00+00:00"
        (some "\x7b\"processed_emails\": [\"x\", \"y\", \"x\"]\x7d"),
        (7 : Int) ≤ 0 ∨ cleanup_keep 7 0 e.2 = true) :=
  claim_legacy_migration ["x", "y", "x"] _ "1970-01-01T00:00:00+00:00" 7 0 rfl rfl

/-- C9 counterexample: between truncation and the completed dump, the
durable state file holds neither the old nor the new complete contents
(it is empty), refuting write-then-persist atomicity: the source opens the
live file with mode `w` instead of writing a temporary and renaming. -/
theorem claim_atomic_save_cex :
    ∃ st ∈ save_state_steps ⟨true, some "\x7b\x7d"⟩ [("a", JValue.str "t")],
      st.file ≠ some "\x7b\x7d"
      ∧ st.file ≠ some (save_state_content [("a", JValue.str "t")]) := by
  refine ⟨⟨true, some ""⟩, ?_, by decide, by decide⟩
  simp [save_state_steps]

/-- C9 (amended): `_save_state` rewrites the state file in place — every
durable state during the save is the original file, the truncated empty
file, or the complete new dump, and the save ends with the parent
directory ensured and the full serialized mapping in place; failure to
persist is swallowed (`process_email` behaves identically whatever the
save outcome) and the in-memory ledger is not touched by saving. -/
theorem claim_save_contract (fs : FileSys) (processed : Ledger) (env : AgentEnv)
    (sr : Except Unit Unit) :
    (save_state_steps fs processed).getLast?
        = some ⟨true, some (save_state_content processed)⟩
    ∧ (∀ st ∈ save_state_steps fs processed, st = fs ∨ st.dirExists = true)
    ∧ (∀ st ∈ save_state_steps fs processed,
        st.file = fs.file ∨ st.file = some "" ∨ st.file = some (save_state_content processed))
    ∧ (∀ (l : Ledger) (email : Email),
        process_email { env with saveResult := sr } l email = process_email env l email) := by
  refine ⟨rfl, ?_, ?_, ?_⟩
  · intro st hst
    simp only [save_state_steps, List.mem_cons, List.mem_singleton] at hst
    rcases hst with rfl | rfl | rfl | hst
    · exact Or.inl rfl
    · exact Or.inr rfl
    · exact Or.inr rfl
    · simp at hst
      rw [hst]
      exact Or.inr rfl
  · intro st hst
    simp only [save_state_steps, List.mem_cons, List.mem_singleton] at hst
    rcases hst with rfl | rfl | rfl | hst
    · exact Or.inl rfl
    · exact Or.inl rfl
    · exact Or.inr (Or.inl rfl)
    · simp at hst
      rw [hst]
      exact Or.inr (Or.inr rfl)
  · intro l email
    rfl


/-- C3 counterexample: with the catalog `\x7b"a\x7d"\x7d` and `L = ["a\x7d"]`
(so `L ⊆ catalog`), parsing the serialization of `\x7b"labels": L\x7d` yields
`[]`, not `L`: the closing brace inside the label makes the
object-narrowing regular expression truncate the JSON before decoding. -/
theorem claim_roundtrip_cex :
    "a\x7d" ∈ (["a\x7d"] : List String)
    ∧ parse_labels_from_response (serialize_labels ["a\x7d"]) ["a\x7d"] = []
    ∧ parse_labels_from_response (serialize_labels ["a\x7d"]) ["a\x7d"] ≠ ["a\x7d"] := by
  refine ⟨by decide, by decide, by decide⟩

/-- C3 (amended): for labels over printable ASCII without quote,
backslash, braces or backtick, whenever every element of `L` matches the
catalog case-insensitively (in particular whenever `L ⊆ catalog`),
parsing the serialization of `\x7b"labels": L\x7d` returns `L` canonicalized
to the catalog casing — each output label is a catalog member agreeing
with its input modulo case. -/
theorem claim_roundtrip (L av : List String)
    (hsafe : ∀ l ∈ L, safeLabel l = true)
    (hmatch : ∀ l ∈ L, ∃ c ∈ av, pyLower c = pyLower l) :
    parse_labels_from_response (serialize_labels L) av = L.map (canonicalize av)
    ∧ ∀ l ∈ L, canonicalize av l ∈ av ∧ pyLower (canonicalize av l) = pyLower l := by
  constructor
  · rw [parse_labels_from_response]
    rw [show (1000 : Nat) = 999 + 1 from rfl]
    rw [parseLabelsAux]
    rw [preprocess_serialize L hsafe, jloads_serialize L hsafe]
    show validate_labels (L.map JValue.str) av = L.map (canonicalize av)
    rw [validate_labels_eq_filterMap, filterMap_resolve_canonical av L hmatch]
  · intro l hl
    exact canonicalize_spec av l (hmatch l hl)

/-- C3 witness: `L = ["aws"]` against the catalog `["AWS"]` parses back
to the canonical `["AWS"]`. -/
theorem claim_roundtrip_witness :
    parse_labels_from_response (serialize_labels ["aws"]) ["AWS"]
      = ["aws"].map (canonicalize ["AWS"])
    ∧ ∀ l ∈ (["aws"] : List String),
        canonicalize ["AWS"] l ∈ (["AWS"] : List String)
        ∧ pyLower (canonicalize ["AWS"] l) = pyLower l :=
  claim_roundtrip ["aws"] ["AWS"] (by decide)
    (fun l hl => ⟨"AWS", by simp, by
      rcases List.mem_singleton.mp hl with rfl
      rfl⟩)
